import Mathlib

/-!
# Verification of the Inner-Product-FE repository

Shallow embedding of the DDH inner-product functional-encryption scheme
(Abdalla–Bourse–De Caro–Pointcheval) and its surrounding three-role
protocol, translated from the Rust sources:

* `src/fe/src/ec_fe.rs` — elliptic-curve backend.  The Ristretto group is
  a cyclic group of prime order; we model it as the additive group of
  `ZMod q` (points written in coordinates with respect to a generator,
  scalars as `ZMod q`), with the modulus `q` a parameter so that the
  theorems apply to the concrete Ristretto order `2^252 + 27742…` and
  witnesses can instantiate small primes.
* `src/fe/src/ff_fe.rs` — safe-prime backend over `(ℤ/pℤ)*`, modelled on
  `ℕ` with explicit `% p` at every step, exactly as `mod_pow` / `mod_mul`
  compute.
* `src/fuzzy_hashes/src/lib.rs` — byte→bit fanning and the
  concat-with-complement encoding.
* `src/comparator/src/lib.rs` — similarity scoring (`compare`).
* `src/compute-server/src/compute_server.rs`, `src/client/src/client.rs`,
  `src/instance-server/src/instance_server.rs` — the three-role protocol.

Rust panics are modelled as `Option.none`; fallible conversions return
`Option`.
-/

set_option maxRecDepth 8000
set_option exponentiation.threshold 60000000

namespace IPFE

/-! ## Inner product over ℕ

`⟨x, y⟩ = Σ x_i * y_i` on the plaintext (byte/bit) vectors. -/

/-- Inner product of two natural-number vectors, `Σ xᵢ * yᵢ`. -/
def ipN (x y : List ℕ) : ℕ :=
  (List.zipWith (· * ·) x y).sum

/-! ## Elliptic-curve backend (`src/fe/src/ec_fe.rs`)

Group elements and scalars both live in `ZMod q`; the group is written
additively (`s * P` is scalar multiplication). -/

/-- `DdhFeInstance` for the EC backend: `g`, `h` and the master secret key
`msk = [(sᵢ, tᵢ)]` (`generic.rs`, `ec_fe.rs::setup`).  `mpk` is recomputed
from the msk (`mpkᵢ = sᵢ·g + tᵢ·h`). -/
structure EcInstance (q : ℕ) where
  g : ZMod q
  h : ZMod q
  s : List (ZMod q)
  t : List (ZMod q)

/-- `DdhFePublicKey` for the EC backend. -/
structure EcPublicKey (q : ℕ) where
  g : ZMod q
  h : ZMod q
  mpk : List (ZMod q)

/-- `DdhFeSecretKey` for the EC backend. -/
structure EcSecretKey (q : ℕ) where
  g : ZMod q
  sx : ZMod q
  tx : ZMod q
  x : List (ZMod q)

/-- `DdhFeCiphertext` for the EC backend. -/
structure EcCipherText (q : ℕ) where
  c : ZMod q
  d : ZMod q
  e : List (ZMod q)

variable {q : ℕ}

/-- `mpkᵢ = msk[i].s * g + msk[i].t * h` (`ec_fe.rs::setup`). -/
def EcInstance.mpk (inst : EcInstance q) : List (ZMod q) :=
  List.zipWith (fun si ti => si * inst.g + ti * inst.h) inst.s inst.t

/-- `FEInstance::public_key` — a projection of the instance. -/
def EcInstance.publicKey (inst : EcInstance q) : EcPublicKey q :=
  { g := inst.g, h := inst.h, mpk := inst.mpk }

/-- `Σ sᵢ · yᵢ` with the `yᵢ` naturals coerced into `ZMod q` — the sum
`secret_key` accumulates. -/
def sdot (s : List (ZMod q)) (y : List ℕ) : ZMod q :=
  (List.zipWith (fun (si : ZMod q) (yi : ℕ) => si * (yi : ZMod q)) s y).sum

/-- Coordinate-wise image of a natural-number vector in `ZMod q`
(`Scalar::from`). -/
def castL (q : ℕ) (y : List ℕ) : List (ZMod q) :=
  y.map (fun (yi : ℕ) => (yi : ZMod q))

/-- `FEInstance::secret_key` — `sx = Σ sᵢ·yᵢ`, `tx = Σ tᵢ·yᵢ` in `ZMod q`,
and the vector `y` is stored coordinate-wise as scalars. -/
def EcInstance.secretKey (inst : EcInstance q) (y : List ℕ) : EcSecretKey q :=
  { g := inst.g
    sx := sdot inst.s y
    tx := sdot inst.t y
    x := castL q y }

/-- `FEPubKey::encrypt` with explicit randomness `r`:
`c = r·g`, `d = r·h`, `eᵢ = xᵢ·g + r·mpkᵢ`. -/
def EcPublicKey.encrypt (pk : EcPublicKey q) (r : ZMod q) (x : List ℕ) :
    EcCipherText q :=
  { c := r * pk.g
    d := r * pk.h
    e := List.zipWith (fun (xi : ℕ) (mpki : ZMod q) => (xi : ZMod q) * pk.g + r * mpki) x pk.mpk }

/-- Multi-scalar product `Σ aᵢ · Pᵢ` (`RistrettoPoint::multiscalar_mul`). -/
def msm (a P : List (ZMod q)) : ZMod q :=
  (List.zipWith (· * ·) a P).sum

/-- The group element whose discrete log `decrypt` searches:
`Σ xᵢ·eᵢ + (−sx)·c + (−tx)·d` (`ec_fe.rs::decrypt`). -/
def EcSecretKey.exValue (sk : EcSecretKey q) (ct : EcCipherText q) : ZMod q :=
  msm (sk.x ++ [-sk.sx, -sk.tx]) (ct.e ++ [ct.c, ct.d])

/-- The brute-force discrete-log loop of `ec_fe.rs::decrypt`:
`while i != bound && p != ex { i += 1; p += g }`, returning the final `i`.
`fuel` is `bound - i`, so the loop structurally terminates; the `i = bound`
test is kept so that the function mirrors the source's exit condition. -/
def bfLoop (g ex : ZMod q) (bound : ℕ) : ℕ → ℕ → ZMod q → ℕ
  | 0, i, _ => i
  | fuel + 1, i, p =>
    if i = bound then i
    else if p = ex then i
    else bfLoop g ex bound fuel (i + 1) (p + g)

/-- `FESecretKey::decrypt` for the EC backend: multiscalar sum, then the
brute-force walk; `None` when the walk exhausts `bound`. -/
def EcSecretKey.decrypt (sk : EcSecretKey q) (ct : EcCipherText q)
    (bound : ℕ) : Option ℕ :=
  let ex := sk.exValue ct
  let i := bfLoop sk.g ex bound bound 0 0
  if i = bound then none else some i

/-! ### Behaviour of the brute-force loop -/

lemma ipN_nil (y : List ℕ) : ipN [] y = 0 := rfl

lemma ipN_cons (a : ℕ) (x : List ℕ) (b : ℕ) (y : List ℕ) :
    ipN (a :: x) (b :: y) = a * b + ipN x y := by
  simp [ipN]

/-- If `ex = k·g` for a unique representative `k < bound`, the walk stops at
`k`. -/
lemma bfLoop_found (g ex : ZMod q) (bound k : ℕ)
    (hk : ex = (k : ZMod q) * g) (hkb : k < bound)
    (huniq : ∀ j, j < bound → (j : ZMod q) * g = ex → j = k) :
    ∀ fuel i, i + fuel = bound → i ≤ k →
      bfLoop g ex bound fuel i ((i : ZMod q) * g) = k := by
  intro fuel
  induction fuel with
  | zero =>
    intro i hi hik
    omega
  | succ m ih =>
    intro i hi hik
    rw [bfLoop]
    rcases eq_or_lt_of_le hik with hik' | hik'
    · subst hik'
      have : (i : ZMod q) * g = ex := hk.symm
      simp [this, Nat.ne_of_lt hkb]
    · have hib : i ≠ bound := by omega
      have hne : (i : ZMod q) * g ≠ ex := fun hpe =>
        absurd (huniq i (by omega) hpe) (Nat.ne_of_lt hik')
      simp only [hib, if_false, hne]
      have hstep : (i : ZMod q) * g + g = ((i + 1 : ℕ) : ZMod q) * g := by
        push_cast
        ring
      rw [hstep]
      exact ih (i + 1) (by omega) (by omega)

/-- If no multiple `j·g` with `j < bound` equals `ex`, the walk exhausts its
budget and returns `bound`. -/
lemma bfLoop_exhaust (g ex : ZMod q) (bound : ℕ)
    (hmiss : ∀ j, j < bound → (j : ZMod q) * g ≠ ex) :
    ∀ fuel i, i + fuel = bound →
      bfLoop g ex bound fuel i ((i : ZMod q) * g) = bound := by
  intro fuel
  induction fuel with
  | zero =>
    intro i hi
    simpa using hi
  | succ m ih =>
    intro i hi
    rw [bfLoop]
    have hib : i ≠ bound := by omega
    have hne : (i : ZMod q) * g ≠ ex := hmiss i (by omega)
    simp only [hib, if_false, hne]
    have hstep : (i : ZMod q) * g + g = ((i + 1 : ℕ) : ZMod q) * g := by
      push_cast
      ring
    rw [hstep]
    exact ih (i + 1) (by omega)

/-! ### Algebraic correctness of the EC backend -/

lemma msm_cons (a : ZMod q) (as : List (ZMod q)) (b : ZMod q)
    (bs : List (ZMod q)) : msm (a :: as) (b :: bs) = a * b + msm as bs := by
  simp [msm]

lemma sdot_cons (a : ZMod q) (as : List (ZMod q)) (b : ℕ) (bs : List ℕ) :
    sdot (a :: as) (b :: bs) = a * (b : ZMod q) + sdot as bs := by
  simp [sdot]

lemma castL_cons (a : ℕ) (as : List ℕ) :
    castL q (a :: as) = (a : ZMod q) :: castL q as := by
  simp [castL]

/-- The `Σ yᵢ·eᵢ` part of the multiscalar product, fully expanded over the
master secret key. -/
lemma msm_vec_part (g h r : ZMod q) (s t : List (ZMod q)) (x y : List ℕ)
    (hs : s.length = x.length) (ht : t.length = x.length)
    (hy : y.length = x.length) :
    msm (castL q y)
        (List.zipWith (fun (xi : ℕ) (mpki : ZMod q) => (xi : ZMod q) * g + r * mpki) x
          (List.zipWith (fun si ti => si * g + ti * h) s t))
      = (ipN x y : ZMod q) * g + r * (sdot s y * g) + r * (sdot t y * h) := by
  induction s generalizing t x y with
  | nil =>
    have hx : x = [] := List.length_eq_zero.mp (by simpa using hs.symm)
    have hy0 : y = [] := List.length_eq_zero.mp (by rw [hy, hx]; rfl)
    subst hx
    subst hy0
    simp [msm, ipN, sdot, castL]
  | cons s0 s' ih =>
    cases x with
    | nil => simp at hs
    | cons x0 x' =>
      cases t with
      | nil =>
        exact absurd ht (by simp)
      | cons t0 t' =>
        cases y with
        | nil =>
          exact absurd hy (by simp)
        | cons y0 y' =>
          have hs' : s'.length = x'.length := by simpa using hs
          have ht' : t'.length = x'.length := by simpa using ht
          have hy' : y'.length = x'.length := by simpa using hy
          rw [List.zipWith_cons_cons, List.zipWith_cons_cons, castL_cons,
            msm_cons, ipN_cons, sdot_cons, sdot_cons,
            ih t' x' y' hs' ht' hy']
          push_cast
          ring

/-- `exValue (secretKey y) (encrypt pk r x) = ⟨x,y⟩ · g`: the masking terms
cancel for every choice of randomness and master secret key. -/
lemma exValue_encrypt (inst : EcInstance q) (x y : List ℕ) (r : ZMod q)
    (hs : inst.s.length = x.length) (ht : inst.t.length = x.length)
    (hy : y.length = x.length) :
    (inst.secretKey y).exValue (inst.publicKey.encrypt r x)
      = (ipN x y : ZMod q) * inst.g := by
  obtain ⟨g, h, s, t⟩ := inst
  show msm (castL q y ++ [-(sdot s y), -(sdot t y)])
      (List.zipWith (fun (xi : ℕ) (mpki : ZMod q) => (xi : ZMod q) * g + r * mpki) x
        (List.zipWith (fun si ti => si * g + ti * h) s t)
        ++ [r * g, r * h])
    = (ipN x y : ZMod q) * g
  have hs2 : s.length = x.length := hs
  have ht2 : t.length = x.length := ht
  have hlen : (castL q y).length
      = (List.zipWith (fun (xi : ℕ) (mpki : ZMod q) => (xi : ZMod q) * g + r * mpki) x
          (List.zipWith (fun si ti => si * g + ti * h) s t)).length := by
    rw [castL, List.length_map, List.length_zipWith, List.length_zipWith]
    omega
  rw [msm, List.zipWith_append _ _ _ _ _ hlen, List.sum_append]
  rw [show (List.zipWith (· * ·) (castL q y)
      (List.zipWith (fun (xi : ℕ) (mpki : ZMod q) => (xi : ZMod q) * g + r * mpki) x
        (List.zipWith (fun si ti => si * g + ti * h) s t))).sum
      = msm (castL q y)
        (List.zipWith (fun (xi : ℕ) (mpki : ZMod q) => (xi : ZMod q) * g + r * mpki) x
          (List.zipWith (fun si ti => si * g + ti * h) s t)) from rfl]
  rw [msm_vec_part g h r s t x y hs ht hy]
  simp only [List.zipWith_cons_cons, List.zipWith_nil_right, List.sum_cons,
    List.sum_nil]
  ring

/-- Core behaviour of EC `decrypt` given that multiplication by `g`
distinguishes the representatives below `q`. -/
lemma ec_decrypt_eq_core (inst : EcInstance q) (x y : List ℕ) (r : ZMod q)
    (bound : ℕ) (hs : inst.s.length = x.length)
    (ht : inst.t.length = x.length) (hy : y.length = x.length)
    (hb : bound ≤ q)
    (hcancel : ∀ j, j < q → (j : ZMod q) * inst.g
      = ((ipN x y : ℕ) : ZMod q) * inst.g → j = ipN x y) :
    (inst.secretKey y).decrypt (inst.publicKey.encrypt r x) bound
      = if ipN x y < bound then some (ipN x y) else none := by
  set k := ipN x y with hk
  have hex : (inst.secretKey y).exValue (inst.publicKey.encrypt r x)
      = (k : ZMod q) * inst.g := exValue_encrypt inst x y r hs ht hy
  have hgsame : (inst.secretKey y).g = inst.g := rfl
  rw [EcSecretKey.decrypt]
  simp only [hex, hgsame]
  by_cases hlt : k < bound
  · have hloop := bfLoop_found inst.g ((k : ZMod q) * inst.g) bound k rfl hlt
      (fun j hj hjg => hcancel j (lt_of_lt_of_le hj hb) hjg)
      bound 0 (by omega) (by omega)
    rw [show ((0 : ℕ) : ZMod q) * inst.g = 0 by simp] at hloop
    simp [hloop, Nat.ne_of_lt hlt, hlt]
  · have hmiss : ∀ j, j < bound → (j : ZMod q) * inst.g
        ≠ (k : ZMod q) * inst.g := by
      intro j hj hjg
      have := hcancel j (lt_of_lt_of_le hj hb) hjg
      omega
    have hloop := bfLoop_exhaust inst.g ((k : ZMod q) * inst.g) bound hmiss
      bound 0 (by omega)
    rw [show ((0 : ℕ) : ZMod q) * inst.g = 0 by simp] at hloop
    simp [hloop, hlt]

/-- Generic correctness of EC `decrypt` for a nondegenerate instance
(`g ≠ 0`) over a prime-order group: the result is `Some ⟨x,y⟩` iff
`⟨x,y⟩ < bound`, `None` iff `⟨x,y⟩ ≥ bound`. -/
theorem ec_decrypt_eq (hq : Nat.Prime q) (inst : EcInstance q)
    (hg : inst.g ≠ 0) (x y : List ℕ) (r : ZMod q) (bound : ℕ)
    (hs : inst.s.length = x.length) (ht : inst.t.length = x.length)
    (hy : y.length = x.length) (hip : ipN x y < q) (hb : bound ≤ q) :
    (inst.secretKey y).decrypt (inst.publicKey.encrypt r x) bound
      = if ipN x y < bound then some (ipN x y) else none := by
  haveI : Fact (Nat.Prime q) := ⟨hq⟩
  apply ec_decrypt_eq_core inst x y r bound hs ht hy hb
  intro j hj hjg
  have hcast : (j : ZMod q) = ((ipN x y : ℕ) : ZMod q) :=
    mul_right_cancel₀ hg hjg
  have hmod : j % q = ipN x y % q :=
    (ZMod.natCast_eq_natCast_iff j (ipN x y) q).mp hcast
  rw [Nat.mod_eq_of_lt hj, Nat.mod_eq_of_lt hip] at hmod
  exact hmod

/-- Correctness of EC `decrypt` when `g = 1` (in coordinates): needs no
primality, so it applies at the literal Ristretto order. -/
lemma ec_decrypt_eq_unit (inst : EcInstance q) (hg : inst.g = 1)
    (x y : List ℕ) (r : ZMod q) (bound : ℕ)
    (hs : inst.s.length = x.length) (ht : inst.t.length = x.length)
    (hy : y.length = x.length) (hip : ipN x y < q) (hb : bound ≤ q) :
    (inst.secretKey y).decrypt (inst.publicKey.encrypt r x) bound
      = if ipN x y < bound then some (ipN x y) else none := by
  apply ec_decrypt_eq_core inst x y r bound hs ht hy hb
  intro j hj hjg
  rw [hg, mul_one, mul_one] at hjg
  have hmod : j % q = ipN x y % q :=
    (ZMod.natCast_eq_natCast_iff j (ipN x y) q).mp hjg
  rw [Nat.mod_eq_of_lt hj, Nat.mod_eq_of_lt hip] at hmod
  exact hmod

/-- Bound on the inner product of two byte vectors. -/
lemma ipN_le_of_bytes (x y : List ℕ) (hx : ∀ a ∈ x, a < 256)
    (hy : ∀ a ∈ y, a < 256) : ipN x y ≤ 65025 * x.length := by
  induction x generalizing y with
  | nil => simp [ipN]
  | cons a x' ih =>
    cases y with
    | nil => simp [ipN]
    | cons b y' =>
      rw [ipN_cons]
      have ha : a < 256 := hx a (by simp)
      have hb : b < 256 := hy b (by simp)
      have hab : a * b ≤ 65025 := by
        calc a * b ≤ 255 * 255 := Nat.mul_le_mul (by omega) (by omega)
        _ = 65025 := by norm_num
      have := ih y' (fun c hc => hx c (by simp [hc]))
        (fun c hc => hy c (by simp [hc]))
      simp only [List.length_cons]
      calc a * b + ipN x' y' ≤ 65025 + 65025 * x'.length := by omega
      _ = 65025 * (x'.length + 1) := by ring

/-! ### Claim C1: EC backend FE correctness -/

/-- The order of the Ristretto group over Curve25519 (`curve25519_dalek`):
`2^252 + 27742317777372353535851937790883648493`, a prime. -/
def ristrettoOrder : ℕ :=
  7237005577332262213973186563042994240857116359379907606001950938285454250989

/-- C1 (amended): for the elliptic-curve backend with `N = 512`, byte-valued
vectors and a `u16` bound, decryption of an encryption returns
`Some ⟨x,y⟩` when `⟨x,y⟩ < bound` and `None` when `⟨x,y⟩ ≥ bound` — for
every instance whose element `g` is not the identity.  The group of prime
order is abstracted as `ZMod q`; the hypotheses `33292800 < q` and
`bound ≤ 65535` hold for the concrete Ristretto order and `u16` bounds. -/
theorem ec_fe_correctness_nondegenerate (q : ℕ) (hq : Nat.Prime q)
    (hqN : 33292800 < q) (inst : EcInstance q) (hg : inst.g ≠ 0)
    (hs : inst.s.length = 512) (ht : inst.t.length = 512)
    (x y : List ℕ) (hx : x.length = 512) (hy : y.length = 512)
    (hxb : ∀ a ∈ x, a < 256) (hyb : ∀ a ∈ y, a < 256)
    (r : ZMod q) (bound : ℕ) (hbound : bound ≤ 65535) :
    (inst.secretKey y).decrypt (inst.publicKey.encrypt r x) bound
      = if ipN x y < bound then some (ipN x y) else none := by
  have hip : ipN x y ≤ 33292800 := by
    have := ipN_le_of_bytes x y hxb hyb
    rw [hx] at this
    omega
  exact ec_decrypt_eq hq inst hg x y r bound (by omega) (by omega)
    (by omega) (by omega) (by omega)

/-- The degenerate instance `g = identity` (which `setup` produces when the
random scalar is `0`), over the actual Ristretto group order. -/
def c1CexInstance : EcInstance ristrettoOrder :=
  { g := 0, h := 0, s := List.replicate 512 0, t := List.replicate 512 0 }

/-- C1 as stated is false: with `g = identity` (a possible output of
`setup`), `x = y = 1^512`, so `⟨x,y⟩ = 512 < 513 = bound`, decryption
returns `Some 0` instead of `Some 512`. -/
theorem ec_fe_correctness_claim_counterexample :
    (c1CexInstance.secretKey (List.replicate 512 1)).decrypt
        (c1CexInstance.publicKey.encrypt 0 (List.replicate 512 1)) 513
      = some 0
    ∧ ipN (List.replicate 512 1) (List.replicate 512 1) = 512
    ∧ (some 0 : Option ℕ) ≠ some 512 := by
  refine ⟨?_, ?_, by decide⟩
  · have hex : (c1CexInstance.secretKey (List.replicate 512 1)).exValue
        (c1CexInstance.publicKey.encrypt 0 (List.replicate 512 1))
        = (ipN (List.replicate 512 1) (List.replicate 512 1) :
            ZMod ristrettoOrder) * c1CexInstance.g :=
      exValue_encrypt c1CexInstance _ _ 0 (by simp [c1CexInstance])
        (by simp [c1CexInstance]) (by simp)
    have hex0 : (c1CexInstance.secretKey (List.replicate 512 1)).exValue
        (c1CexInstance.publicKey.encrypt 0 (List.replicate 512 1)) = 0 := by
      rw [hex]
      show (_ : ZMod ristrettoOrder) * 0 = 0
      rw [mul_zero]
    rw [EcSecretKey.decrypt, hex0]
    rfl
  · decide

/-! ### A Lucas primality certificate

The nondegenerate C1 witness needs a concrete prime above `33292800`
(the largest possible inner product of two byte vectors of length 512).
`57395629 = 2 ^ 2 * 3 ^ 15 + 1` is certified prime via `lucas_primality`
with primitive root `10`; the modular powers are evaluated by explicit
square-and-multiply chains over kernel-computable `*` and `%`. -/

lemma powModStep_sq (b e m r : ℕ) (h : b ^ e % m = r) :
    b ^ (2 * e) % m = r * r % m := by
  rw [two_mul, pow_add, Nat.mul_mod, h]

lemma powModStep_sq_mul (b e m r : ℕ) (h : b ^ e % m = r) :
    b ^ (2 * e + 1) % m = r * r % m * b % m := by
  rw [pow_succ, Nat.mul_mod, powModStep_sq b e m r h, Nat.mul_mod (r * r % m) b m,
      Nat.mod_mod_of_dvd _ dvd_rfl]

/-- Square-and-multiply evaluation of a modular power of 10, used by the
Lucas primality certificate for 57395629. -/
lemma pow10_28697814 : (10:ℕ) ^ (2 * 14348907) % 57395629 = 57395628 := by
  have h1 : (10:ℕ) ^ 1 % 57395629 = 10 := by norm_num
  have h2 : (10:ℕ) ^ (3) % 57395629 = 1000 :=
    (powModStep_sq_mul 10 1 57395629 10 h1).trans (by norm_num)
  have h3 : (10:ℕ) ^ (6) % 57395629 = 1000000 :=
    (powModStep_sq 10 3 57395629 1000 h2).trans (by norm_num)
  have h4 : (10:ℕ) ^ (13) % 57395629 = 16954959 :=
    (powModStep_sq_mul 10 6 57395629 1000000 h3).trans (by norm_num)
  have h5 : (10:ℕ) ^ (27) % 57395629 = 7574836 :=
    (powModStep_sq_mul 10 13 57395629 16954959 h4).trans (by norm_num)
  have h6 : (10:ℕ) ^ (54) % 57395629 = 17093741 :=
    (powModStep_sq 10 27 57395629 7574836 h5).trans (by norm_num)
  have h7 : (10:ℕ) ^ (109) % 57395629 = 54822539 :=
    (powModStep_sq_mul 10 54 57395629 17093741 h6).trans (by norm_num)
  have h8 : (10:ℕ) ^ (218) % 57395629 = 34156063 :=
    (powModStep_sq 10 109 57395629 54822539 h7).trans (by norm_num)
  have h9 : (10:ℕ) ^ (437) % 57395629 = 41421199 :=
    (powModStep_sq_mul 10 218 57395629 34156063 h8).trans (by norm_num)
  have h10 : (10:ℕ) ^ (875) % 57395629 = 9210492 :=
    (powModStep_sq_mul 10 437 57395629 41421199 h9).trans (by norm_num)
  have h11 : (10:ℕ) ^ (1751) % 57395629 = 11245202 :=
    (powModStep_sq_mul 10 875 57395629 9210492 h10).trans (by norm_num)
  have h12 : (10:ℕ) ^ (3503) % 57395629 = 16473430 :=
    (powModStep_sq_mul 10 1751 57395629 11245202 h11).trans (by norm_num)
  have h13 : (10:ℕ) ^ (7006) % 57395629 = 15412388 :=
    (powModStep_sq 10 3503 57395629 16473430 h12).trans (by norm_num)
  have h14 : (10:ℕ) ^ (14012) % 57395629 = 21197856 :=
    (powModStep_sq 10 7006 57395629 15412388 h13).trans (by norm_num)
  have h15 : (10:ℕ) ^ (28025) % 57395629 = 52178256 :=
    (powModStep_sq_mul 10 14012 57395629 21197856 h14).trans (by norm_num)
  have h16 : (10:ℕ) ^ (56050) % 57395629 = 13450928 :=
    (powModStep_sq 10 28025 57395629 52178256 h15).trans (by norm_num)
  have h17 : (10:ℕ) ^ (112100) % 57395629 = 26303290 :=
    (powModStep_sq 10 56050 57395629 13450928 h16).trans (by norm_num)
  have h18 : (10:ℕ) ^ (224201) % 57395629 = 17280994 :=
    (powModStep_sq_mul 10 112100 57395629 26303290 h17).trans (by norm_num)
  have h19 : (10:ℕ) ^ (448403) % 57395629 = 14319314 :=
    (powModStep_sq_mul 10 224201 57395629 17280994 h18).trans (by norm_num)
  have h20 : (10:ℕ) ^ (896806) % 57395629 = 25587691 :=
    (powModStep_sq 10 448403 57395629 14319314 h19).trans (by norm_num)
  have h21 : (10:ℕ) ^ (1793613) % 57395629 = 29183524 :=
    (powModStep_sq_mul 10 896806 57395629 25587691 h20).trans (by norm_num)
  have h22 : (10:ℕ) ^ (3587226) % 57395629 = 3334293 :=
    (powModStep_sq 10 1793613 57395629 29183524 h21).trans (by norm_num)
  have h23 : (10:ℕ) ^ (7174453) % 57395629 = 51703635 :=
    (powModStep_sq_mul 10 3587226 57395629 3334293 h22).trans (by norm_num)
  have h24 : (10:ℕ) ^ (14348907) % 57395629 = 19864209 :=
    (powModStep_sq_mul 10 7174453 57395629 51703635 h23).trans (by norm_num)
  have h25 : (10:ℕ) ^ (2 * 14348907) % 57395629 = 57395628 :=
    (powModStep_sq 10 14348907 57395629 19864209 h24).trans (by norm_num)
  exact h25

/-- Square-and-multiply evaluation of a modular power of 10, used by the
Lucas primality certificate for 57395629. -/
lemma pow10_19131876 : (10:ℕ) ^ (2 * 9565938) % 57395629 = 28691253 := by
  have g1 : (10:ℕ) ^ 1 % 57395629 = 10 := by norm_num
  have g2 : (10:ℕ) ^ (2) % 57395629 = 100 :=
    (powModStep_sq 10 1 57395629 10 g1).trans (by norm_num)
  have g3 : (10:ℕ) ^ (4) % 57395629 = 10000 :=
    (powModStep_sq 10 2 57395629 100 g2).trans (by norm_num)
  have g4 : (10:ℕ) ^ (9) % 57395629 = 24274307 :=
    (powModStep_sq_mul 10 4 57395629 10000 g3).trans (by norm_num)
  have g5 : (10:ℕ) ^ (18) % 57395629 = 29019340 :=
    (powModStep_sq 10 9 57395629 24274307 g4).trans (by norm_num)
  have g6 : (10:ℕ) ^ (36) % 57395629 = 52166043 :=
    (powModStep_sq 10 18 57395629 29019340 g5).trans (by norm_num)
  have g7 : (10:ℕ) ^ (72) % 57395629 = 11677928 :=
    (powModStep_sq 10 36 57395629 52166043 g6).trans (by norm_num)
  have g8 : (10:ℕ) ^ (145) % 57395629 = 19804206 :=
    (powModStep_sq_mul 10 72 57395629 11677928 g7).trans (by norm_num)
  have g9 : (10:ℕ) ^ (291) % 57395629 = 15271985 :=
    (powModStep_sq_mul 10 145 57395629 19804206 g8).trans (by norm_num)
  have g10 : (10:ℕ) ^ (583) % 57395629 = 50047802 :=
    (powModStep_sq_mul 10 291 57395629 15271985 g9).trans (by norm_num)
  have g11 : (10:ℕ) ^ (1167) % 57395629 = 29266717 :=
    (powModStep_sq_mul 10 583 57395629 50047802 g10).trans (by norm_num)
  have g12 : (10:ℕ) ^ (2335) % 57395629 = 47119196 :=
    (powModStep_sq_mul 10 1167 57395629 29266717 g11).trans (by norm_num)
  have g13 : (10:ℕ) ^ (4670) % 57395629 = 45020568 :=
    (powModStep_sq 10 2335 57395629 47119196 g12).trans (by norm_num)
  have g14 : (10:ℕ) ^ (9341) % 57395629 = 13486076 :=
    (powModStep_sq_mul 10 4670 57395629 45020568 g13).trans (by norm_num)
  have g15 : (10:ℕ) ^ (18683) % 57395629 = 40843351 :=
    (powModStep_sq_mul 10 9341 57395629 13486076 g14).trans (by norm_num)
  have g16 : (10:ℕ) ^ (37366) % 57395629 = 44144671 :=
    (powModStep_sq 10 18683 57395629 40843351 g15).trans (by norm_num)
  have g17 : (10:ℕ) ^ (74733) % 57395629 = 57026803 :=
    (powModStep_sq_mul 10 37366 57395629 44144671 g16).trans (by norm_num)
  have g18 : (10:ℕ) ^ (149467) % 57395629 = 49775460 :=
    (powModStep_sq_mul 10 74733 57395629 57026803 g17).trans (by norm_num)
  have g19 : (10:ℕ) ^ (298935) % 57395629 = 13952738 :=
    (powModStep_sq_mul 10 149467 57395629 49775460 g18).trans (by norm_num)
  have g20 : (10:ℕ) ^ (597871) % 57395629 = 10096997 :=
    (powModStep_sq_mul 10 298935 57395629 13952738 g19).trans (by norm_num)
  have g21 : (10:ℕ) ^ (1195742) % 57395629 = 18032985 :=
    (powModStep_sq 10 597871 57395629 10096997 g20).trans (by norm_num)
  have g22 : (10:ℕ) ^ (2391484) % 57395629 = 9146652 :=
    (powModStep_sq 10 1195742 57395629 18032985 g21).trans (by norm_num)
  have g23 : (10:ℕ) ^ (4782969) % 57395629 = 22231709 :=
    (powModStep_sq_mul 10 2391484 57395629 9146652 g22).trans (by norm_num)
  have g24 : (10:ℕ) ^ (9565938) % 57395629 = 28691254 :=
    (powModStep_sq 10 4782969 57395629 22231709 g23).trans (by norm_num)
  have g25 : (10:ℕ) ^ (2 * 9565938) % 57395629 = 28691253 :=
    (powModStep_sq 10 9565938 57395629 28691254 g24).trans (by norm_num)
  exact g25

lemma pow10_57395628 : (10:ℕ) ^ (2 * (2 * 14348907)) % 57395629 = 1 :=
  (powModStep_sq 10 (2 * 14348907) 57395629 57395628 pow10_28697814).trans (by norm_num)

lemma zmod_pow10 (e : ℕ) :
    ((10 ^ e % 57395629 : ℕ) : ZMod 57395629) = (10 : ZMod 57395629) ^ e := by
  rw [ZMod.natCast_mod, Nat.cast_pow, Nat.cast_ofNat]

/-- Lucas primality certificate: 57395629 = 2 ^ 2 * 3 ^ 15 + 1 is prime, with
primitive root 10. -/
lemma prime_57395629 : Nat.Prime 57395629 := by
  have ha : (10 : ZMod 57395629) ^ (57395629 - 1) = 1 := by
    rw [show (57395629 - 1 : ℕ) = 2 * (2 * 14348907) from by norm_num, ← zmod_pow10,
        pow10_57395628, Nat.cast_one]
  refine lucas_primality 57395629 10 ha ?_
  intro r hr hdvd
  have hdvd2 : r ∣ 2 ^ 2 * 3 ^ 15 := by
    rwa [show (2 ^ 2 * 3 ^ 15 : ℕ) = 57395629 - 1 from by norm_num]
  have h23 : r = 2 ∨ r = 3 := by
    rcases (Nat.Prime.dvd_mul hr).mp hdvd2 with h | h
    · exact Or.inl ((Nat.prime_dvd_prime_iff_eq hr Nat.prime_two).mp
        (hr.dvd_of_dvd_pow h))
    · exact Or.inr ((Nat.prime_dvd_prime_iff_eq hr Nat.prime_three).mp
        (hr.dvd_of_dvd_pow h))
  have hone : (1 : ZMod 57395629) = ((1 : ℕ) : ZMod 57395629) := by
    rw [Nat.cast_one]
  rcases h23 with h | h <;> subst h
  · rw [show ((57395629 - 1) / 2 : ℕ) = 2 * 14348907 from by norm_num, ← zmod_pow10,
        pow10_28697814, hone, Ne, ZMod.natCast_eq_natCast_iff]
    decide
  · rw [show ((57395629 - 1) / 3 : ℕ) = 2 * 9565938 from by norm_num, ← zmod_pow10,
        pow10_19131876, hone, Ne, ZMod.natCast_eq_natCast_iff]
    decide

/-- A nondegenerate concrete instance over the certified prime `57395629`. -/
def c1WitInstance : EcInstance 57395629 :=
  { g := 1, h := 0, s := List.replicate 512 0, t := List.replicate 512 0 }

/-- Witness for the amended C1 at a concrete input. -/
theorem ec_fe_correctness_nondegenerate_witness :
    (c1WitInstance.secretKey (List.replicate 512 1)).decrypt
        (c1WitInstance.publicKey.encrypt 0 (List.replicate 512 1)) 600
      = some 512 := by
  rw [ec_fe_correctness_nondegenerate 57395629 prime_57395629 (by norm_num)
    c1WitInstance (by decide) (by simp [c1WitInstance])
    (by simp [c1WitInstance]) (List.replicate 512 1) (List.replicate 512 1)
    (by simp) (by simp) (by simp) (by simp) 0 600 (by norm_num)]
  have h512 : ipN (List.replicate 512 1) (List.replicate 512 1) = 512 := by
    decide
  rw [h512]
  norm_num

/-! ## Fuzzy-hash encoding (`src/fuzzy_hashes/src/lib.rs`)

Bytes are naturals (`< 256` where it matters); digests are 32-byte lists.
-/

/-- The eight bits of a byte, most-significant first:
`array::from_fn(|i| 1u8 & (b >> (7 - i)))` (`FHVector::to_bits`). -/
def byteBits (b : ℕ) : List ℕ :=
  (List.range 8).map (fun i => 1 &&& (b >>> (7 - i)))

/-- `FHVector::to_bits`: fan every byte into its bits, MSB first
(`flat_map` over the byte vector). -/
def toBits : List ℕ → List ℕ
  | [] => []
  | b :: rest => byteBits b ++ toBits rest

/-- `From<[u8; 32]> for FHVector<u8>`: the 64-byte concat-with-complement
vector, built index-wise exactly as the source's `array::from_fn`. -/
def fhVectorOfDigest (d : List ℕ) : List ℕ :=
  (List.range 64).map (fun i =>
    if i < 32 then d.getD (i % 32) 0 else 255 ^^^ d.getD (i % 32) 0)

/-- The 512-bit vector `v(h)` a party derives from a digest (`to_bits` of
the concat-with-complement `FHVector`). -/
def encodeDigest (d : List ℕ) : List ℕ :=
  toBits (fhVectorOfDigest d)

/-- Number of set bits among the low eight bits of a byte (the `popcount`
of the claim, per byte). -/
def popCount8 (n : ℕ) : ℕ :=
  ((List.range 8).map (fun i => 1 &&& (n >>> i))).sum

/-- `popcount(h1 XOR h2)` for two byte strings, summed byte-wise. -/
def popCountBytes (a b : List ℕ) : ℕ :=
  (List.zipWith (fun x y => popCount8 (x ^^^ y)) a b).sum

/-! ### Bit-level lemmas -/

lemma and_one_le (z : ℕ) : 1 &&& z ≤ 1 := Nat.and_le_left

lemma shiftRight_xor (a b k : ℕ) :
    (a ^^^ b) >>> k = (a >>> k) ^^^ (b >>> k) := by
  apply Nat.eq_of_testBit_eq
  intro i
  simp [Nat.testBit_shiftRight, Nat.testBit_xor]

lemma bit_xor (a b k : ℕ) :
    1 &&& ((a ^^^ b) >>> k) = (1 &&& (a >>> k)) ^^^ (1 &&& (b >>> k)) := by
  rw [shiftRight_xor, Nat.and_xor_distrib_left]

lemma bit_compl (a k : ℕ) (hk : k < 8) :
    1 &&& ((255 ^^^ a) >>> k) = 1 - (1 &&& (a >>> k)) := by
  rw [bit_xor]
  have h255 : 1 &&& (255 >>> k) = 1 := by
    interval_cases k <;> decide
  rw [h255]
  have hb : 1 &&& (a >>> k) ≤ 1 := and_one_le _
  interval_cases h : (1 &&& (a >>> k)) <;> decide

lemma ipN_map_map (l : List ℕ) (f g : ℕ → ℕ) :
    ipN (l.map f) (l.map g) = (l.map (fun i => f i * g i)).sum := by
  induction l with
  | nil => rfl
  | cons a l ih =>
    simp only [List.map_cons, ipN, List.zipWith_cons_cons, List.sum_cons]
    rw [show (List.zipWith (· * ·) (l.map f) (l.map g)).sum
        = ipN (l.map f) (l.map g) from rfl, ih]

lemma sum_map_add (l : List ℕ) (f g : ℕ → ℕ) :
    (l.map f).sum + (l.map g).sum = (l.map (fun i => f i + g i)).sum := by
  induction l with
  | nil => rfl
  | cons a l ih =>
    simp only [List.map_cons, List.sum_cons]
    omega

lemma sum_range8_reflect (f : ℕ → ℕ) :
    ((List.range 8).map f).sum = ((List.range 8).map (fun i => f (7 - i))).sum := by
  simp [List.range_succ]
  ring

lemma sum_map_eq_length (l : List ℕ) (f : ℕ → ℕ) (h : ∀ i ∈ l, f i = 1) :
    (l.map f).sum = l.length := by
  induction l with
  | nil => rfl
  | cons a l ih =>
    simp only [List.map_cons, List.sum_cons, List.length_cons]
    rw [h a (by simp), ih (fun i hi => h i (by simp [hi]))]
    omega

/-- The single-bit identity behind the encoding:
`x·y + (1-x)·(1-y) + (x ⊕ y) = 1` for bits. -/
lemma bit_identity (xa xb : ℕ) (hxa : xa ≤ 1) (hxb : xb ≤ 1) :
    xa * xb + (1 - xa) * (1 - xb) + (xa ^^^ xb) = 1 := by
  interval_cases xa <;> interval_cases xb <;> decide

/-- Per byte: `⟨bits a, bits b⟩ + ⟨bits ¬a, bits ¬b⟩ + popcount(a ⊕ b) = 8`. -/
lemma byte_identity (a b : ℕ) :
    ipN (byteBits a) (byteBits b)
      + ipN (byteBits (255 ^^^ a)) (byteBits (255 ^^^ b))
      + popCount8 (a ^^^ b) = 8 := by
  rw [byteBits, byteBits, byteBits, byteBits, popCount8,
    ipN_map_map, ipN_map_map, sum_range8_reflect (fun i => 1 &&& ((a ^^^ b) >>> i)),
    sum_map_add, sum_map_add]
  rw [show (8 : ℕ) = (List.range 8).length by rfl]
  apply sum_map_eq_length
  intro i hi
  have hi8 : i < 8 := List.mem_range.mp hi
  have h7 : 7 - i < 8 := by omega
  rw [bit_compl a _ h7, bit_compl b _ h7, bit_xor]
  exact bit_identity _ _ (and_one_le _) (and_one_le _)

/-! ### List-level assembly -/

lemma byteBits_length (b : ℕ) : (byteBits b).length = 8 := by
  simp [byteBits]

lemma toBits_append (u v : List ℕ) :
    toBits (u ++ v) = toBits u ++ toBits v := by
  induction u with
  | nil => rfl
  | cons a u ih =>
    show byteBits a ++ toBits (u ++ v) = byteBits a ++ toBits u ++ toBits v
    rw [ih, List.append_assoc]

lemma ipN_append (u w v z : List ℕ) (h : u.length = w.length) :
    ipN (u ++ v) (w ++ z) = ipN u w + ipN v z := by
  rw [ipN, List.zipWith_append _ _ _ _ _ h, List.sum_append]
  rfl

/-- Core inductive identity over byte strings of equal length. -/
lemma ip_compl_sum (l1 l2 : List ℕ) (h : l1.length = l2.length) :
    ipN (toBits l1) (toBits l2)
      + ipN (toBits (l1.map (fun a => 255 ^^^ a)))
            (toBits (l2.map (fun a => 255 ^^^ a)))
      + popCountBytes l1 l2 = 8 * l1.length := by
  induction l1 generalizing l2 with
  | nil =>
    have h0 : l2.length = 0 := by simpa using h.symm
    have : l2 = [] := List.length_eq_zero.mp h0
    subst this
    rfl
  | cons a l1 ih =>
    cases l2 with
    | nil => simp at h
    | cons b l2 =>
      have h' : l1.length = l2.length := by simpa using h
      rw [show toBits (a :: l1) = byteBits a ++ toBits l1 from rfl,
        show toBits (b :: l2) = byteBits b ++ toBits l2 from rfl,
        List.map_cons, List.map_cons,
        show toBits ((255 ^^^ a) :: l1.map (fun c => 255 ^^^ c))
          = byteBits (255 ^^^ a) ++ toBits (l1.map (fun c => 255 ^^^ c)) from rfl,
        show toBits ((255 ^^^ b) :: l2.map (fun c => 255 ^^^ c))
          = byteBits (255 ^^^ b) ++ toBits (l2.map (fun c => 255 ^^^ c)) from rfl,
        ipN_append _ _ _ _ (by rw [byteBits_length, byteBits_length]),
        ipN_append _ _ _ _ (by rw [byteBits_length, byteBits_length]),
        show popCountBytes (a :: l1) (b :: l2)
          = popCount8 (a ^^^ b) + popCountBytes l1 l2 from by
            simp [popCountBytes]]
      have hbyte := byte_identity a b
      have hih := ih l2 h'
      simp only [List.length_cons]
      omega

/-- `fhVectorOfDigest` is the byte-level concat-with-complement. -/
lemma fhVectorOfDigest_eq (d : List ℕ) (hlen : d.length = 32) :
    fhVectorOfDigest d = d ++ d.map (fun a => 255 ^^^ a) := by
  apply List.ext_getElem
  · simp [fhVectorOfDigest, hlen]
  · intro i hi1 hi2
    simp only [fhVectorOfDigest, List.getElem_map, List.getElem_range]
    have hi64 : i < 64 := by simpa [fhVectorOfDigest] using hi1
    by_cases hlt : i < 32
    · rw [if_pos hlt, List.getElem_append_left (by omega),
        List.getD_eq_getElem d 0 (by omega)]
      congr 1
      omega
    · rw [if_neg hlt, List.getElem_append_right (by omega)]
      simp only [List.getElem_map]
      rw [List.getD_eq_getElem d 0 (by omega)]
      congr 2
      omega

lemma toBits_length (l : List ℕ) : (toBits l).length = 8 * l.length := by
  induction l with
  | nil => rfl
  | cons a l ih =>
    show (byteBits a ++ toBits l).length = 8 * (l.length + 1)
    rw [List.length_append, byteBits_length, ih]
    ring

/-- The two concat-with-complement encodings always have inner product
`≤ 256`, and the precise identity `ip + popcount = 256` holds. -/
lemma ip_encode_add_popcount (d1 d2 : List ℕ) (h1 : d1.length = 32)
    (h2 : d2.length = 32) :
    ipN (encodeDigest d1) (encodeDigest d2) + popCountBytes d1 d2 = 256 := by
  rw [encodeDigest, encodeDigest, fhVectorOfDigest_eq d1 h1,
    fhVectorOfDigest_eq d2 h2, toBits_append, toBits_append,
    ipN_append _ _ _ _ (by rw [toBits_length, toBits_length, h1, h2])]
  have := ip_compl_sum d1 d2 (by omega)
  omega

lemma ip_encode_le_256 (d1 d2 : List ℕ) (h1 : d1.length = 32)
    (h2 : d2.length = 32) :
    ipN (encodeDigest d1) (encodeDigest d2) ≤ 256 := by
  have := ip_encode_add_popcount d1 d2 h1 h2
  omega

/-- C6: `popcount(h1 XOR h2) = 256 − ⟨v(h1), v(h2)⟩` for all 32-byte
digests, with `v` the MSB-first bit fanning of the concat-with-complement
`FHVector`. -/
theorem encoding_identity_popcount (d1 d2 : List ℕ)
    (h1 : d1.length = 32) (h2 : d2.length = 32)
    (_hb1 : ∀ a ∈ d1, a < 256) (_hb2 : ∀ a ∈ d2, a < 256) :
    popCountBytes d1 d2 = 256 - ipN (encodeDigest d1) (encodeDigest d2) := by
  have := ip_encode_add_popcount d1 d2 h1 h2
  omega

/-- Witness for C6 at two concrete digests (`0^32` and `0xff^32`, whose
XOR has all 256 bits set). -/
theorem encoding_identity_popcount_witness :
    popCountBytes (List.replicate 32 0) (List.replicate 32 255)
      = 256
        - ipN (encodeDigest (List.replicate 32 0))
            (encodeDigest (List.replicate 32 255))
    ∧ popCountBytes (List.replicate 32 0) (List.replicate 32 255) = 256 := by
  refine ⟨?_, by decide⟩
  rw [encoding_identity_popcount (List.replicate 32 0) (List.replicate 32 255)
    (by simp) (by simp) (by simp) (by simp)]

/-! ## Comparator (`src/comparator/src/lib.rs`) and the per-batch scoring
loop of the compute server (`src/compute-server/src/compute_server.rs`)

`Comparator::compare` decrypts with bound `NILSIMSA_VECTOR_SIZE_BITS = 512`
and *panics* when decryption returns `None`; the panic is modelled as
`Option.none`.  Scores are `i16` values; since every score computed here
lies in `[-128, 383]`, plain `ℤ` models the `i16` arithmetic exactly. -/

/-- `Comparator::compare`: `128 - ((512 >> 1) - d) = 128 - (256 - d)` on
`Some d`; panic (`none`) on `None`. -/
def compare (sk : EcSecretKey q) (ct : EcCipherText q) : Option ℤ :=
  match sk.decrypt ct 512 with
  | none => none
  | some d => some (128 - ((256 : ℤ) - (d : ℤ)))

/-- The inner loop of `handle_client`: fold the running maximum over the
batch's secret keys; a panic inside `compare` aborts (propagates `none`). -/
def scoreBatch (sks : List (EcSecretKey q)) (ct : EcCipherText q)
    (score : ℤ) : Option ℤ :=
  match sks with
  | [] => some score
  | sk :: rest =>
    match compare sk ct with
    | none => none
    | some s => scoreBatch rest ct (if s > score then s else score)

lemma ipN_comm (x y : List ℕ) : ipN x y = ipN y x := by
  induction x generalizing y with
  | nil => cases y <;> rfl
  | cons a x ih =>
    cases y with
    | nil => rfl
    | cons b y => rw [ipN_cons, ipN_cons, ih, Nat.mul_comm]

lemma encodeDigest_length (d : List ℕ) : (encodeDigest d).length = 512 := by
  rw [encodeDigest, toBits_length]
  simp [fhVectorOfDigest]

/-- `compare` on two complement-encoded digests, for any instance with the
given nondegeneracy: the decryption never exhausts its bound (the inner
product is ≤ 256 < 512), so the score is `⟨v(h1),v(h2)⟩ - 128`. -/
lemma compare_encoded (inst : EcInstance q) (d1 d2 : List ℕ) (r : ZMod q)
    (h1 : d1.length = 32) (h2 : d2.length = 32)
    (hs : inst.s.length = 512) (ht : inst.t.length = 512) (hq512 : 512 ≤ q)
    (hcancel : ∀ j, j < q → (j : ZMod q) * inst.g
      = ((ipN (encodeDigest d2) (encodeDigest d1) : ℕ) : ZMod q) * inst.g
      → j = ipN (encodeDigest d2) (encodeDigest d1)) :
    compare (inst.secretKey (encodeDigest d1))
        (inst.publicKey.encrypt r (encodeDigest d2))
      = some ((ipN (encodeDigest d1) (encodeDigest d2) : ℤ) - 128) := by
  have hip : ipN (encodeDigest d2) (encodeDigest d1) ≤ 256 :=
    ip_encode_le_256 d2 d1 h2 h1
  have hdec := ec_decrypt_eq_core inst (encodeDigest d2) (encodeDigest d1) r
    512 (by rw [hs, encodeDigest_length]) (by rw [ht, encodeDigest_length])
    (by rw [encodeDigest_length, encodeDigest_length]) hq512 hcancel
  have hstep : compare (inst.secretKey (encodeDigest d1))
      (inst.publicKey.encrypt r (encodeDigest d2))
      = some (128 - ((256 : ℤ)
          - (ipN (encodeDigest d2) (encodeDigest d1) : ℤ))) := by
    simp only [compare]
    rw [hdec]
    rw [if_pos (by omega)]
  rw [hstep, ipN_comm (encodeDigest d1) (encodeDigest d2)]
  exact congrArg some (by ring)

/-- `compare` over a prime-order group with nondegenerate `g` (helper
shared by the similarity-score claim and the protocol model). -/
lemma compare_encoded_prime (hq : Nat.Prime q) (hq512 : 512 ≤ q)
    (inst : EcInstance q) (hg : inst.g ≠ 0)
    (hs : inst.s.length = 512) (ht : inst.t.length = 512)
    (d1 d2 : List ℕ) (h1 : d1.length = 32) (h2 : d2.length = 32)
    (r : ZMod q) :
    compare (inst.secretKey (encodeDigest d1))
        (inst.publicKey.encrypt r (encodeDigest d2))
      = some ((ipN (encodeDigest d1) (encodeDigest d2) : ℤ) - 128) := by
  haveI : Fact (Nat.Prime q) := ⟨hq⟩
  apply compare_encoded inst d1 d2 r h1 h2 hs ht hq512
  intro j hj hjg
  have hip : ipN (encodeDigest d2) (encodeDigest d1) ≤ 256 :=
    ip_encode_le_256 d2 d1 h2 h1
  have hcast := mul_right_cancel₀ hg hjg
  have hmod : j % q = ipN (encodeDigest d2) (encodeDigest d1) % q :=
    (ZMod.natCast_eq_natCast_iff _ _ q).mp hcast
  rw [Nat.mod_eq_of_lt hj, Nat.mod_eq_of_lt (by omega)] at hmod
  exact hmod

/-- C5 (amended): the similarity score the scheme computes from the
concat-with-complement encodings equals `⟨v(h1),v(h2)⟩ - 128`
(equivalently `128 - (256 - ⟨v(h1),v(h2)⟩)`), not `256 - ⟨v(h1),v(h2)⟩`. -/
theorem similarity_score_value (q : ℕ) (hq : Nat.Prime q) (hq512 : 512 ≤ q)
    (inst : EcInstance q) (hg : inst.g ≠ 0)
    (hs : inst.s.length = 512) (ht : inst.t.length = 512)
    (d1 d2 : List ℕ) (h1 : d1.length = 32) (h2 : d2.length = 32)
    (r : ZMod q) :
    compare (inst.secretKey (encodeDigest d1))
        (inst.publicKey.encrypt r (encodeDigest d2))
      = some ((ipN (encodeDigest d1) (encodeDigest d2) : ℤ) - 128) :=
  compare_encoded_prime hq hq512 inst hg hs ht d1 d2 h1 h2 r

/-- An instance with `g = 1` over the literal Ristretto order, with zero
master secret key: every value it produces is computable in closed form. -/
def ecUnitInstance : EcInstance ristrettoOrder :=
  { g := 1, h := 0, s := List.replicate 512 0, t := List.replicate 512 0 }

lemma ecUnitInstance_cancel (m : ℕ) (hm : m < ristrettoOrder) :
    ∀ j, j < ristrettoOrder → (j : ZMod ristrettoOrder) * ecUnitInstance.g
      = ((m : ℕ) : ZMod ristrettoOrder) * ecUnitInstance.g → j = m := by
  intro j hj hjg
  rw [show ecUnitInstance.g = 1 from rfl, mul_one, mul_one] at hjg
  have hmod : j % ristrettoOrder = m % ristrettoOrder :=
    (ZMod.natCast_eq_natCast_iff _ _ _).mp hjg
  rw [Nat.mod_eq_of_lt hj, Nat.mod_eq_of_lt hm] at hmod
  exact hmod

/-- C5 as stated is false: on equal digests the code's score is `128`
(`⟨v,v⟩ - 128` with `⟨v,v⟩ = 256`), whereas `256 - ⟨v(h1),v(h2)⟩ = 0`. -/
theorem similarity_score_claim_counterexample :
    compare (ecUnitInstance.secretKey (encodeDigest (List.replicate 32 0)))
        (ecUnitInstance.publicKey.encrypt 0 (encodeDigest (List.replicate 32 0)))
      = some 128
    ∧ (256 : ℤ)
        - (ipN (encodeDigest (List.replicate 32 0))
            (encodeDigest (List.replicate 32 0)) : ℤ) = 0
    ∧ some (128 : ℤ) ≠ some (0 : ℤ) := by
  have hip : ipN (encodeDigest (List.replicate 32 0))
      (encodeDigest (List.replicate 32 0)) = 256 := by decide
  refine ⟨?_, by rw [hip]; norm_num, by decide⟩
  have hcmp := compare_encoded ecUnitInstance (List.replicate 32 0)
    (List.replicate 32 0) 0 (by simp) (by simp) (by simp [ecUnitInstance])
    (by simp [ecUnitInstance]) (by norm_num [ristrettoOrder])
    (ecUnitInstance_cancel _ (by rw [hip]; norm_num [ristrettoOrder]))
  rw [hcmp, hip]
  norm_num

/-- Witness for the amended C5 at a concrete prime and digests. -/
theorem similarity_score_value_witness :
    compare
        ((⟨1, 0, List.replicate 512 0, List.replicate 512 0⟩ :
          EcInstance 521).secretKey (encodeDigest (List.replicate 32 0)))
        ((⟨1, 0, List.replicate 512 0, List.replicate 512 0⟩ :
          EcInstance 521).publicKey.encrypt 0
          (encodeDigest (List.replicate 32 0)))
      = some 128 := by
  rw [similarity_score_value 521 (by norm_num) (by norm_num)
    ⟨1, 0, List.replicate 512 0, List.replicate 512 0⟩ (by decide)
    (by simp) (by simp) (List.replicate 32 0) (List.replicate 32 0)
    (by simp) (by simp) 0]
  have hip : ipN (encodeDigest (List.replicate 32 0))
      (encodeDigest (List.replicate 32 0)) = 256 := by decide
  rw [hip]
  norm_num

/-! ### Claim C3: behaviour of the scoring loop on `Dec = None` -/

lemma compare_none_of_decrypt_none (sk : EcSecretKey q) (ct : EcCipherText q)
    (h : sk.decrypt ct 512 = none) : compare sk ct = none := by
  simp only [compare, h]

lemma scoreBatch_cons (sk : EcSecretKey q) (rest : List (EcSecretKey q))
    (ct : EcCipherText q) (score : ℤ) :
    scoreBatch (sk :: rest) ct score
      = match compare sk ct with
        | none => none
        | some s => scoreBatch rest ct (if s > score then s else score) := rfl

/-- C3 (amended): whenever `Dec` returns `None` for a reference secret key
in the batch, `Comparator::compare` panics, so the whole batch scoring
aborts — the item is *not* silently skipped and the remaining references
are not scored. -/
theorem dec_none_aborts_batch (sks : List (EcSecretKey q))
    (ct : EcCipherText q) (score : ℤ) (sk : EcSecretKey q) (hmem : sk ∈ sks)
    (hnone : sk.decrypt ct 512 = none) :
    scoreBatch sks ct score = none := by
  induction sks generalizing score with
  | nil => simp at hmem
  | cons a rest ih =>
    rw [scoreBatch_cons]
    rcases List.mem_cons.mp hmem with h | h
    · subst h
      rw [compare_none_of_decrypt_none _ ct hnone]
    · cases hca : compare a ct with
      | none => rfl
      | some s => exact ih _ h

/-- The all-ones bit vector key and ciphertext over the unit instance:
`⟨1^512, 1^512⟩ = 512` equals the comparator's bound, so `Dec = None`. -/
lemma ones_decrypt_none :
    (ecUnitInstance.secretKey (List.replicate 512 1)).decrypt
      (ecUnitInstance.publicKey.encrypt 0 (List.replicate 512 1)) 512
      = none := by
  have hip : ipN (List.replicate 512 1) (List.replicate 512 1) = 512 := by
    decide
  rw [ec_decrypt_eq_unit ecUnitInstance rfl (List.replicate 512 1)
    (List.replicate 512 1) 0 512 (by simp [ecUnitInstance])
    (by simp [ecUnitInstance]) (by simp)
    (by rw [hip]; norm_num [ristrettoOrder])
    (by norm_num [ristrettoOrder])]
  rw [hip]
  norm_num

/-- C3 as stated is false: at a reference key for which `Dec` returns
`None`, the batch scoring loop does not continue with the running maximum
unchanged (`some score`); it aborts with a panic (`none`). -/
theorem dec_none_skip_claim_counterexample :
    (ecUnitInstance.secretKey (List.replicate 512 1)).decrypt
        (ecUnitInstance.publicKey.encrypt 0 (List.replicate 512 1)) 512
      = none
    ∧ scoreBatch [ecUnitInstance.secretKey (List.replicate 512 1)]
        (ecUnitInstance.publicKey.encrypt 0 (List.replicate 512 1)) (-32768)
      = none
    ∧ (none : Option ℤ) ≠ some (-32768) := by
  refine ⟨ones_decrypt_none, ?_, by decide⟩
  rw [scoreBatch_cons, compare_none_of_decrypt_none _ _ ones_decrypt_none]

/-- Witness for the amended C3: a two-element batch aborts as soon as the
exhausted reference is reached. -/
theorem dec_none_aborts_batch_witness :
    scoreBatch
        [ecUnitInstance.secretKey (List.replicate 512 1),
         ecUnitInstance.secretKey (List.replicate 512 1)]
        (ecUnitInstance.publicKey.encrypt 0 (List.replicate 512 1)) 0
      = none := by
  exact dec_none_aborts_batch _ _ 0
    (ecUnitInstance.secretKey (List.replicate 512 1)) (by simp)
    ones_decrypt_none

/-! ## Secret-key compression (`src/fe/src/ec_fe.rs`, lines 37–86)

`CompressedRistretto` is modelled by its decode result: `some p` for the
canonical encoding of `p`, `none` for byte strings that fail to decode.
The panic in `From<&SecretKey>` is modelled as `none`. -/

/-- `CompressedDdhFeSecretKey` for the EC backend. -/
structure CompressedSecretKeyEc (q : ℕ) where
  g : Option (ZMod q)
  sx : ZMod q
  tx : ZMod q
  x : List ℕ

/-- The per-coordinate conversion of `From<&SecretKey>`: `0` for the zero
scalar, `1` for the one scalar, panic otherwise. -/
def scalarBit (b : ZMod q) : Option ℕ :=
  if b = 0 then some 0 else if b = 1 then some 1 else none

/-- The `map` over the key's vector; any panic aborts the conversion. -/
def bitsOfScalars : List (ZMod q) → Option (List ℕ)
  | [] => some []
  | b :: rest =>
    match scalarBit b, bitsOfScalars rest with
    | some x, some xs => some (x :: xs)
    | _, _ => none

/-- `chunks_exact(8)` followed by `(0..8).map(|i| b[i] * (1 << (7-i))).sum()`:
chunk `k` packs bits `8k..8k+8`, MSB first. -/
def packBytes (l : List ℕ) : List ℕ :=
  (List.range (l.length / 8)).map (fun k =>
    ((List.range 8).map (fun i => l.getD (8 * k + i) 0 * (1 <<< (7 - i)))).sum)

/-- `From<&SecretKey<N>> for CompressedSecretKey`. -/
def compressSK (sk : EcSecretKey q) : Option (CompressedSecretKeyEc q) :=
  match bitsOfScalars sk.x with
  | none => none
  | some bits => some
      { g := some sk.g, sx := sk.sx, tx := sk.tx, x := packBytes bits }

/-- `TryFrom<&CompressedSecretKey> for SecretKey<N>`: reject a packed
vector whose length differs from `N / 8` or an undecodable group element;
otherwise unpack bit `i` from byte `i / 8`, MSB first. -/
def decompressSK (N : ℕ) (c : CompressedSecretKeyEc q) :
    Option (EcSecretKey q) :=
  if c.x.length ≠ N / 8 then none
  else
    match c.g with
    | none => none
    | some g => some
        { g := g, sx := c.sx, tx := c.tx,
          x := (List.range N).map (fun i =>
            ((1 &&& (c.x.getD (i / 8) 0 >>> (7 - i % 8)) : ℕ) : ZMod q)) }

/-! ### Claim C10: the panic condition of compression -/

lemma scalarBit_none_iff (b : ZMod q) :
    scalarBit b = none ↔ ¬(b = 0 ∨ b = 1) := by
  rw [scalarBit]
  by_cases h0 : b = 0
  · simp [h0]
  · by_cases h1 : b = 1
    · by_cases h10 : (1 : ZMod q) = 0
      · exact absurd (h1.trans h10) h0
      · simp [h0, h1, h10]
    · simp [h0, h1]

lemma bitsOfScalars_none_iff (l : List (ZMod q)) :
    bitsOfScalars l = none ↔ ∃ b ∈ l, scalarBit b = none := by
  induction l with
  | nil => simp [bitsOfScalars]
  | cons a l ih =>
    rw [show bitsOfScalars (a :: l)
        = match scalarBit a, bitsOfScalars l with
          | some x, some xs => some (x :: xs)
          | _, _ => none from rfl]
    cases ha : scalarBit a with
    | none => simp [ha]
    | some x =>
      cases hl : bitsOfScalars l with
      | none =>
        constructor
        · intro _
          obtain ⟨b, hb, hnone⟩ := ih.mp hl
          exact ⟨b, List.mem_cons_of_mem a hb, hnone⟩
        · intro _
          rfl
      | some xs =>
        constructor
        · intro h
          simp at h
        · rintro ⟨b, hb, hnone⟩
          rcases List.mem_cons.mp hb with hba | hbl
          · rw [hba] at hnone
            rw [ha] at hnone
            exact Option.noConfusion hnone
          · have hcontr := ih.mpr ⟨b, hbl, hnone⟩
            rw [hcontr] at hl
            exact Option.noConfusion hl

/-- C10: converting a `SecretKey` into a `CompressedSecretKey` panics iff
some coordinate of `x` is a scalar other than `0` or `1`; under the
precondition that every coordinate is `0` or `1`, the conversion is total
(the panic branch is unreachable). -/
theorem compress_panics_iff (q : ℕ) (sk : EcSecretKey q) :
    compressSK sk = none ↔ ∃ b ∈ sk.x, ¬(b = 0 ∨ b = 1) := by
  have hstep : compressSK sk = none ↔ bitsOfScalars sk.x = none := by
    rw [compressSK]
    cases h : bitsOfScalars sk.x <;> simp [h]
  rw [hstep, bitsOfScalars_none_iff]
  constructor
  · rintro ⟨b, hb, hnone⟩
    exact ⟨b, hb, (scalarBit_none_iff b).mp hnone⟩
  · rintro ⟨b, hb, hbad⟩
    exact ⟨b, hb, (scalarBit_none_iff b).mpr hbad⟩

/-! ### Claim C9: compression round-trip -/

lemma and_one_eq_mod_two (z : ℕ) : 1 &&& z = z % 2 := by
  rw [Nat.and_comm, Nat.and_one_is_mod]

lemma byte_rt (b0 b1 b2 b3 b4 b5 b6 b7 r : ℕ)
    (h0 : b0 ≤ 1) (h1 : b1 ≤ 1) (h2 : b2 ≤ 1) (h3 : b3 ≤ 1)
    (h4 : b4 ≤ 1) (h5 : b5 ≤ 1) (h6 : b6 ≤ 1) (h7 : b7 ≤ 1) (hr : r < 8) :
    1 &&& ((b0 * 128 + b1 * 64 + b2 * 32 + b3 * 16 + b4 * 8 + b5 * 4
        + b6 * 2 + b7 * 1) >>> (7 - r))
      = [b0, b1, b2, b3, b4, b5, b6, b7].getD r 0 := by
  interval_cases r <;>
    simp only [and_one_eq_mod_two, Nat.shiftRight_eq_div_pow, List.getD] <;>
    norm_num <;> omega

/-- Extracting bit `r` (MSB first) from a packed byte recovers the bit. -/
lemma byte_extract (g : ℕ → ℕ) (hb : ∀ j, g j ≤ 1) (r : ℕ) (hr : r < 8) :
    1 &&& ((((List.range 8).map (fun j => g j * (1 <<< (7 - j)))).sum)
        >>> (7 - r))
      = g r := by
  have hexp : ((List.range 8).map (fun j => g j * (1 <<< (7 - j)))).sum
      = g 0 * 128 + g 1 * 64 + g 2 * 32 + g 3 * 16 + g 4 * 8 + g 5 * 4
        + g 6 * 2 + g 7 * 1 := by
    simp [List.range_succ]
    ring
  rw [hexp, byte_rt _ _ _ _ _ _ _ _ r (hb 0) (hb 1) (hb 2) (hb 3) (hb 4)
    (hb 5) (hb 6) (hb 7) hr]
  interval_cases r <;> rfl

lemma getD_le_one (l : List ℕ) (hb : ∀ a ∈ l, a ≤ 1) (n : ℕ) :
    l.getD n 0 ≤ 1 := by
  rcases Nat.lt_or_ge n l.length with h | h
  · rw [List.getD_eq_getElem l 0 h]
    exact hb _ (List.getElem_mem h)
  · rw [List.getD_eq_default l 0 h]
    omega

lemma packBytes_length (l : List ℕ) :
    (packBytes l).length = l.length / 8 := by
  simp [packBytes]

lemma packBytes_getD (l : List ℕ) (k : ℕ) (hk : k < l.length / 8) :
    (packBytes l).getD k 0
      = ((List.range 8).map (fun i => l.getD (8 * k + i) 0
          * (1 <<< (7 - i)))).sum := by
  rw [List.getD_eq_getElem _ 0 (by rw [packBytes_length]; exact hk)]
  simp [packBytes]

/-- Unpacking the packed bit string recovers every bit. -/
lemma unpack_pack (bl : List ℕ) (hb : ∀ a ∈ bl, a ≤ 1) (i : ℕ)
    (hi : i < bl.length) (hdiv : bl.length % 8 = 0) :
    1 &&& ((packBytes bl).getD (i / 8) 0 >>> (7 - i % 8)) = bl.getD i 0 := by
  have hk : i / 8 < bl.length / 8 := by omega
  rw [packBytes_getD bl (i / 8) hk]
  have := byte_extract (fun j => bl.getD (8 * (i / 8) + j) 0)
    (fun j => getD_le_one bl hb _) (i % 8) (by omega)
  rw [this]
  show bl.getD (8 * (i / 8) + i % 8) 0 = bl.getD i 0
  congr 1
  omega

/-- The bit list produced by a `{0,1}`-valued scalar vector. -/
lemma bitsOfScalars_spec (l : List (ZMod q)) (hb : ∀ b ∈ l, b = 0 ∨ b = 1) :
    ∃ bl, bitsOfScalars l = some bl ∧ bl.length = l.length
      ∧ (∀ a ∈ bl, a ≤ 1)
      ∧ ∀ i, ((bl.getD i 0 : ℕ) : ZMod q) = l.getD i 0 := by
  induction l with
  | nil =>
    exact ⟨[], rfl, rfl, by simp, fun i => by simp⟩
  | cons a l ih =>
    obtain ⟨bl, hbl, hlen, hle, hcast⟩ :=
      ih (fun b hbmem => hb b (List.mem_cons_of_mem a hbmem))
    rcases hb a (List.mem_cons_self a l) with ha | ha
    · refine ⟨0 :: bl, ?_, by simp [hlen], ?_, ?_⟩
      · rw [show bitsOfScalars (a :: l)
            = match scalarBit a, bitsOfScalars l with
              | some x, some xs => some (x :: xs)
              | _, _ => none from rfl,
          show scalarBit a = some 0 by rw [scalarBit, if_pos ha], hbl]
      · intro c hc
        rcases List.mem_cons.mp hc with h | h
        · omega
        · exact hle c h
      · intro i
        cases i with
        | zero => simp [ha]
        | succ n => simpa using hcast n
    · by_cases ha0 : a = 0
      · refine ⟨0 :: bl, ?_, by simp [hlen], ?_, ?_⟩
        · rw [show bitsOfScalars (a :: l)
              = match scalarBit a, bitsOfScalars l with
                | some x, some xs => some (x :: xs)
                | _, _ => none from rfl,
            show scalarBit a = some 0 by rw [scalarBit, if_pos ha0], hbl]
        · intro c hc
          rcases List.mem_cons.mp hc with h | h
          · omega
          · exact hle c h
        · intro i
          cases i with
          | zero => simp [ha0]
          | succ n => simpa using hcast n
      · refine ⟨1 :: bl, ?_, by simp [hlen], ?_, ?_⟩
        · rw [show bitsOfScalars (a :: l)
              = match scalarBit a, bitsOfScalars l with
                | some x, some xs => some (x :: xs)
                | _, _ => none from rfl,
            show scalarBit a = some 1 by
              rw [scalarBit, if_neg ha0, if_pos ha], hbl]
        · intro c hc
          rcases List.mem_cons.mp hc with h | h
          · omega
          · exact hle c h
        · intro i
          cases i with
          | zero => simp [ha]
          | succ n => simpa using hcast n

/-- Compression then decompression of a bit-vector key is the identity
(helper shared by the round-trip claim and the protocol model). -/
lemma compress_then_decompress (sk : EcSecretKey q)
    (hlen : sk.x.length = 512) (hbits : ∀ b ∈ sk.x, b = 0 ∨ b = 1) :
    ∃ csk, compressSK sk = some csk ∧ decompressSK 512 csk = some sk := by
  obtain ⟨bl, hbl, hbllen, hble, hcast⟩ := bitsOfScalars_spec sk.x hbits
  refine ⟨{ g := some sk.g, sx := sk.sx, tx := sk.tx, x := packBytes bl },
    ?_, ?_⟩
  · rw [compressSK, hbl]
  · have hplen : (packBytes bl).length = 64 := by
      rw [packBytes_length, hbllen, hlen]
    rw [decompressSK, if_neg (by rw [hplen]; norm_num)]
    have hx : (List.range 512).map (fun i =>
        ((1 &&& ((packBytes bl).getD (i / 8) 0 >>> (7 - i % 8)) : ℕ)
          : ZMod q)) = sk.x := by
      apply List.ext_getElem
      · simp [hlen]
      · intro i hi1 hi2
        simp only [List.getElem_map, List.getElem_range]
        have hi512 : i < 512 := by simpa using hi1
        rw [unpack_pack bl hble i (by omega) (by rw [hbllen, hlen]),
          hcast i, List.getD_eq_getElem sk.x 0 (by omega)]
    rw [hx]

/-- The error condition of decompression (helper). -/
lemma decompress_none_iff (csk : CompressedSecretKeyEc q) :
    decompressSK 512 csk = none ↔ (csk.x.length ≠ 64 ∨ csk.g = none) := by
  rw [decompressSK]
  by_cases hl : csk.x.length = 64
  · rw [if_neg (by rw [hl]; norm_num)]
    cases hg : csk.g with
    | none => simp [hl]
    | some g => simp [hl]
  · rw [if_pos (by rw [show (512 : ℕ) / 8 = 64 by norm_num]; exact hl)]
    simp [hl]

/-- C9: for every EC secret key over `N = 512` whose vector has every
coordinate `0` or `1`, decompressing the compressed form succeeds and
yields the identical secret key (same `g`, `sx`, `tx`, `x`, hence identical
decryption results); and decompression fails exactly when the packed byte
length differs from `N / 8 = 64` or the group element fails to decode. -/
theorem compressed_roundtrip (q : ℕ) (sk : EcSecretKey q)
    (hlen : sk.x.length = 512) (hbits : ∀ b ∈ sk.x, b = 0 ∨ b = 1) :
    (∃ csk, compressSK sk = some csk ∧ decompressSK 512 csk = some sk)
    ∧ ∀ csk : CompressedSecretKeyEc q,
        decompressSK 512 csk = none ↔ (csk.x.length ≠ 64 ∨ csk.g = none) :=
  ⟨compress_then_decompress sk hlen hbits,
   fun csk => decompress_none_iff csk⟩

/-- Witness for C9: the all-ones key over `ZMod 7` compresses to the
all-`0xff` byte string and decompresses back to itself. -/
theorem compressed_roundtrip_witness :
    (∃ csk, compressSK (⟨1, 0, 0, List.replicate 512 1⟩ : EcSecretKey 7)
        = some csk
      ∧ decompressSK 512 csk
        = some (⟨1, 0, 0, List.replicate 512 1⟩ : EcSecretKey 7))
    ∧ Option.map (fun c => c.x)
        (compressSK (⟨1, 0, 0, List.replicate 512 1⟩ : EcSecretKey 7))
      = some (List.replicate 64 255) := by
  constructor
  · exact (compressed_roundtrip 7 ⟨1, 0, 0, List.replicate 512 1⟩
      (by simp)
      (fun b hbmem => by rw [List.eq_of_mem_replicate hbmem]; right; rfl)).1
  · decide

/-! ## Authority request validation
(`src/instance-server/src/instance_server.rs`) -/

/-- `FHVector<u8>`: the wire-level fuzzy-hash vector (single variant). -/
inductive FHVectorM where
  | nilsimsaVector (bytes : List ℕ)

/-- `mem::discriminant`, trivial for the single-variant enum. -/
def FHVectorM.discr : FHVectorM → ℕ
  | .nilsimsaVector _ => 0

/-- `SERVER_MAX_LEN = NILSIMSA_VECTOR_SIZE_BITS = 512`. -/
def SERVER_MAX_LEN : ℕ := 512

/-- `check_incomming_vectors`: the `match` on the length rejects `0` and
exactly `SERVER_MAX_LEN`; then the homogeneity check. -/
def checkIncommingVectors (v : List FHVectorM) : Except String Unit :=
  if v.length = 0 then Except.error "Received empty message, abort"
  else if v.length = SERVER_MAX_LEN then
    Except.error "Received too much vectors, abort"
  else if v.all (fun w =>
      w.discr = (v.headD (FHVectorM.nilsimsaVector [])).discr) then
    Except.ok ()
  else Except.error "Received heterogeneous vectors, abort"

/-- C4 is violated by the code: the length `match` rejects only `0` and
exactly `512`, so a request of `513` vectors — which the claim, the spec
and the source's own comment (`instance_server.rs:19-21`, "more (or at
least as much)") say must be refused — passes the check, while `0` and
`512` are refused as documented. -/
theorem authority_size_check_evaluation :
    checkIncommingVectors
        (List.replicate 513 (FHVectorM.nilsimsaVector (List.replicate 64 0)))
      = Except.ok ()
    ∧ checkIncommingVectors
        (List.replicate 512 (FHVectorM.nilsimsaVector (List.replicate 64 0)))
      = Except.error "Received too much vectors, abort"
    ∧ checkIncommingVectors [] = Except.error "Received empty message, abort"
    ∧ checkIncommingVectors
        (List.replicate 511 (FHVectorM.nilsimsaVector (List.replicate 64 0)))
      = Except.ok ()
    ∧ (513 : ℕ) ≥ 512 := by
  refine ⟨?_, by rfl, by rfl, ?_, by norm_num⟩ <;> rfl

/-! ## Safe-prime backend (`src/fe/src/ff_fe.rs`)

Scalars and group elements are arbitrary-precision naturals (`malachite`'s
`Natural`); every group operation reduces `% p` exactly where `mod_mul` /
`mod_pow` do.  The modulus `DH15_PRIME` lives in `consts.rs`, which is not
part of the sources; per the spec (§4.1) it is the RFC 3526 group-15
3072-bit safe prime, so the development is parameterised by a prime `p`. -/

/-- `mod_pow`: `a ^ b % p`. -/
def powMod (p a b : ℕ) : ℕ := a ^ b % p

/-- `mod_mul`: `a * b % p`. -/
def mulMod (p a b : ℕ) : ℕ := a * b % p

/-- `DdhFeInstance` for the safe-prime backend (`g`, `h`, msk). -/
structure FfInstance where
  g : ℕ
  h : ℕ
  s : List ℕ
  t : List ℕ

/-- `DdhFePublicKey` for the safe-prime backend. -/
structure FfPublicKey where
  g : ℕ
  h : ℕ
  mpk : List ℕ

/-- `DdhFeSecretKey` for the safe-prime backend: `sx`, `tx` are the
*unreduced* natural-number sums. -/
structure FfSecretKey where
  g : ℕ
  sx : ℕ
  tx : ℕ
  x : List ℕ

/-- `DdhFeCiphertext` for the safe-prime backend. -/
structure FfCipherText where
  c : ℕ
  d : ℕ
  e : List ℕ

/-- `mpkᵢ = g^{sᵢ} · h^{tᵢ} mod p` (`ff_fe.rs::setup`). -/
def FfInstance.mpk (p : ℕ) (inst : FfInstance) : List ℕ :=
  List.zipWith (fun si ti => mulMod p (powMod p inst.g si) (powMod p inst.h ti))
    inst.s inst.t

/-- `FEInstance::public_key` for the safe-prime backend. -/
def FfInstance.publicKey (p : ℕ) (inst : FfInstance) : FfPublicKey :=
  { g := inst.g, h := inst.h, mpk := inst.mpk p }

/-- `FEInstance::secret_key`: `sx = Σ sᵢ·yᵢ`, `tx = Σ tᵢ·yᵢ` as plain
naturals — no reduction modulo the subgroup order. -/
def FfInstance.secretKey (inst : FfInstance) (y : List ℕ) : FfSecretKey :=
  { g := inst.g, sx := ipN inst.s y, tx := ipN inst.t y, x := y }

/-- `FEPubKey::encrypt` with explicit randomness `r`:
`c = g^r`, `d = h^r`, `eᵢ = g^{xᵢ} · mpkᵢ^r`, all mod `p`. -/
def FfPublicKey.encrypt (p : ℕ) (pk : FfPublicKey) (r : ℕ) (x : List ℕ) :
    FfCipherText :=
  { c := powMod p pk.g r
    d := powMod p pk.h r
    e := List.zipWith (fun xi mpki => mulMod p (powMod p pk.g xi)
        (powMod p mpki r)) x pk.mpk }

/-- The value whose discrete log `decrypt` searches:
`Π eᵢ^{xᵢ} · (c^{sx} · d^{tx})^{p-2}` mod `p` (`ff_fe.rs::decrypt`). -/
def FfSecretKey.exValue (p : ℕ) (sk : FfSecretKey) (ct : FfCipherText) : ℕ :=
  mulMod p
    ((ct.e.zip sk.x).foldl
      (fun acc exi => mulMod p acc (powMod p exi.1 exi.2)) 1)
    (powMod p (mulMod p (powMod p ct.c sk.sx) (powMod p ct.d sk.tx)) (p - 2))

/-- The brute-force loop of `ff_fe.rs::decrypt`:
`while i < bound && p != ex { i += 1; p.mod_mul_assign(g) }`. -/
def ffBfLoop (p g ex bound : ℕ) : ℕ → ℕ → ℕ → ℕ
  | 0, i, _ => i
  | fuel + 1, i, pr =>
    if i < bound then
      if pr = ex then i
      else ffBfLoop p g ex bound fuel (i + 1) (mulMod p pr g)
    else i

/-- `FEPrivKey::decrypt` for the safe-prime backend. -/
def FfSecretKey.decrypt (p : ℕ) (sk : FfSecretKey) (ct : FfCipherText)
    (bound : ℕ) : Option ℕ :=
  let ex := sk.exValue p ct
  let i := ffBfLoop p sk.g ex bound bound 0 1
  if i = bound then none else some i

/-! ### The brute-force walk over `(ℤ/pℤ)*` -/

lemma mulMod_powMod_succ (p g i : ℕ) :
    mulMod p (powMod p g i) g = powMod p g (i + 1) := by
  rw [mulMod, powMod, powMod, Nat.mod_mul_mod, pow_succ]

/-- If `ex = g^k mod p`, `k < bound`, and no earlier power collides, the
walk stops at `k`. -/
lemma ffBfLoop_found (p g ex bound k : ℕ)
    (hk : ex = powMod p g k) (hkb : k < bound)
    (hmiss : ∀ j, j < k → powMod p g j ≠ ex) :
    ∀ fuel i, i + fuel = bound → i ≤ k →
      ffBfLoop p g ex bound fuel i (powMod p g i) = k := by
  intro fuel
  induction fuel with
  | zero =>
    intro i hi hik
    omega
  | succ m ih =>
    intro i hi hik
    rw [ffBfLoop]
    rcases eq_or_lt_of_le hik with hik' | hik'
    · subst hik'
      rw [if_pos (by omega), if_pos hk.symm]
    · rw [if_pos (by omega), if_neg (hmiss i hik'),
        mulMod_powMod_succ p g i]
      exact ih (i + 1) (by omega) (by omega)

/-! ### Casting the safe-prime arithmetic into `ZMod p` -/

lemma mulMod_cast (p a b : ℕ) :
    ((mulMod p a b : ℕ) : ZMod p) = (a : ZMod p) * (b : ZMod p) := by
  rw [mulMod, ZMod.natCast_mod, Nat.cast_mul]

lemma powMod_cast (p a b : ℕ) :
    ((powMod p a b : ℕ) : ZMod p) = (a : ZMod p) ^ b := by
  rw [powMod, ZMod.natCast_mod, Nat.cast_pow]

lemma powMod_lt (p a b : ℕ) (hp : 0 < p) : powMod p a b < p := by
  rw [powMod]
  exact Nat.mod_lt _ hp

lemma mulMod_lt (p a b : ℕ) (hp : 0 < p) : mulMod p a b < p := by
  rw [mulMod]
  exact Nat.mod_lt _ hp

lemma eq_of_cast_eq_of_lt (p a b : ℕ) (ha : a < p) (hb : b < p)
    (h : (a : ZMod p) = (b : ZMod p)) : a = b := by
  have hmod : a % p = b % p := (ZMod.natCast_eq_natCast_iff a b p).mp h
  rw [Nat.mod_eq_of_lt ha, Nat.mod_eq_of_lt hb] at hmod
  exact hmod

/-- The running `mod_mul`/`mod_pow` fold is the product of the cast
powers. -/
lemma ffFold_cast (p : ℕ) (es ys : List ℕ) (a0 : ℕ) :
    (((es.zip ys).foldl
        (fun acc exi => mulMod p acc (powMod p exi.1 exi.2)) a0 : ℕ)
      : ZMod p)
      = (a0 : ZMod p)
        * ((es.zip ys).map
            (fun exi => ((exi.1 : ℕ) : ZMod p) ^ exi.2)).prod := by
  induction es generalizing ys a0 with
  | nil => simp
  | cons e es ih =>
    cases ys with
    | nil => simp
    | cons y ys =>
      rw [List.zip_cons_cons, List.foldl_cons, List.map_cons, List.prod_cons,
        ih ys _, mulMod_cast, powMod_cast]
      ring

/-- `Π eᵢ^{yᵢ}` fully expanded over the master secret key. -/
lemma ffProd_e (p g h r : ℕ) (s t x y : List ℕ)
    (hs : s.length = x.length) (ht : t.length = x.length)
    (hy : y.length = x.length) :
    ((List.zip
        (List.zipWith (fun xi mpki => mulMod p (powMod p g xi)
          (powMod p mpki r)) x
          (List.zipWith (fun si ti => mulMod p (powMod p g si)
            (powMod p h ti)) s t)) y).map
      (fun exi => ((exi.1 : ℕ) : ZMod p) ^ exi.2)).prod
      = (g : ZMod p) ^ ipN x y
        * ((g : ZMod p) ^ ipN s y * (h : ZMod p) ^ ipN t y) ^ r := by
  induction s generalizing t x y with
  | nil =>
    have hx : x = [] := List.length_eq_zero.mp (by simpa using hs.symm)
    have hy0 : y = [] := List.length_eq_zero.mp (by rw [hy, hx]; rfl)
    subst hx
    subst hy0
    simp [ipN]
  | cons s0 s' ih =>
    cases x with
    | nil => simp at hs
    | cons x0 x' =>
      cases t with
      | nil => exact absurd ht (by simp)
      | cons t0 t' =>
        cases y with
        | nil => exact absurd hy (by simp)
        | cons y0 y' =>
          have hs' : s'.length = x'.length := by simpa using hs
          have ht' : t'.length = x'.length := by simpa using ht
          have hy' : y'.length = x'.length := by simpa using hy
          rw [List.zipWith_cons_cons, List.zipWith_cons_cons,
            List.zip_cons_cons, List.map_cons, List.prod_cons,
            ih t' x' y' hs' ht' hy', ipN_cons, ipN_cons, ipN_cons,
            mulMod_cast, powMod_cast, powMod_cast, mulMod_cast,
            powMod_cast, powMod_cast]
          ring

/-- The heart of C8: despite `sx`, `tx` being unreduced naturals, the
multiplicative combination computed by `decrypt` equals `g^⟨x,y⟩ mod p` —
Fermat's little theorem absorbs `(c^sx · d^tx) · (c^sx · d^tx)^(p-2)`. -/
lemma ffExValue_eq (p : ℕ) (hp : Nat.Prime p) (inst : FfInstance)
    (hg0 : (inst.g : ZMod p) ≠ 0) (hh0 : (inst.h : ZMod p) ≠ 0)
    (x y : List ℕ) (r : ℕ) (hs : inst.s.length = x.length)
    (ht : inst.t.length = x.length) (hy : y.length = x.length) :
    (inst.secretKey y).exValue p ((inst.publicKey p).encrypt p r x)
      = powMod p inst.g (ipN x y) := by
  haveI : Fact (Nat.Prime p) := ⟨hp⟩
  have hppos : 0 < p := hp.pos
  obtain ⟨g, h, s, t⟩ := inst
  simp only [FfInstance.secretKey, FfInstance.publicKey, FfInstance.mpk,
    FfPublicKey.encrypt, FfSecretKey.exValue] at *
  apply eq_of_cast_eq_of_lt p _ _ (mulMod_lt p _ _ hppos)
    (powMod_lt p _ _ hppos)
  simp only [mulMod_cast, powMod_cast, ffFold_cast, Nat.cast_one]
  rw [ffProd_e p g h r s t x y hs ht hy]
  set G := (g : ZMod p) with hG
  set H := (h : ZMod p) with hH
  have hunit : (G ^ ipN s y * H ^ ipN t y) ^ r ≠ 0 :=
    pow_ne_zero _ (mul_ne_zero (pow_ne_zero _ hg0) (pow_ne_zero _ hh0))
  have hfermat : ((G ^ ipN s y * H ^ ipN t y) ^ r) ^ (p - 1) = 1 :=
    ZMod.pow_card_sub_one_eq_one hunit
  have hW : ((G ^ r) ^ ipN s y * (H ^ r) ^ ipN t y)
      = (G ^ ipN s y * H ^ ipN t y) ^ r := by
    rw [mul_pow, ← pow_mul, ← pow_mul, ← pow_mul, ← pow_mul,
      Nat.mul_comm r (ipN s y), Nat.mul_comm r (ipN t y)]
  calc (1 : ZMod p)
        * (G ^ ipN x y * (G ^ ipN s y * H ^ ipN t y) ^ r)
        * ((G ^ r) ^ ipN s y * (H ^ r) ^ ipN t y) ^ (p - 2)
      = G ^ ipN x y * ((G ^ ipN s y * H ^ ipN t y) ^ r
          * ((G ^ ipN s y * H ^ ipN t y) ^ r) ^ (p - 2)) := by
        rw [hW]
        ring
    _ = G ^ ipN x y
          * ((G ^ ipN s y * H ^ ipN t y) ^ r) ^ (p - 1) := by
        rw [show ((G ^ ipN s y * H ^ ipN t y) ^ r)
            * ((G ^ ipN s y * H ^ ipN t y) ^ r) ^ (p - 2)
          = ((G ^ ipN s y * H ^ ipN t y) ^ r) ^ (p - 2 + 1) by
            rw [pow_succ]
            ring]
        congr 2
        have := hp.two_le
        omega
    _ = G ^ ipN x y := by rw [hfermat, mul_one]

/-! ### Claim C8: safe-prime backend correctness -/

/-- C8 (amended): for the safe-prime backend, for every instance with the
sampled `g, h ∈ [2, p)`, `secret_key` stores the *unreduced* natural sums
`sx = Σ sᵢyᵢ`, `tx = Σ tᵢyᵢ`; the modular exponentiations and the inverse
computed as the `(p-2)`-th power yield exactly `g^⟨x,y⟩ mod p`, and the
brute-force walk returns `Some ⟨x,y⟩` for every bound `> ⟨x,y⟩` —
provided no earlier power of `g` collides with `g^⟨x,y⟩` (true whenever
the order of `g` exceeds `⟨x,y⟩`; over the RFC 3526 prime only `g = p-1`,
of order 2, violates it). -/
theorem ff_fe_correctness (p : ℕ) (hp : Nat.Prime p) (inst : FfInstance)
    (hg2 : 2 ≤ inst.g) (hgp : inst.g < p) (hh2 : 2 ≤ inst.h)
    (hhp : inst.h < p) (x y : List ℕ) (r bound : ℕ)
    (hs : inst.s.length = x.length) (ht : inst.t.length = x.length)
    (hy : y.length = x.length) (hb : ipN x y < bound)
    (hmiss : ∀ j, j < ipN x y →
      powMod p inst.g j ≠ powMod p inst.g (ipN x y)) :
    (inst.secretKey y).sx = ipN inst.s y
    ∧ (inst.secretKey y).exValue p ((inst.publicKey p).encrypt p r x)
        = powMod p inst.g (ipN x y)
    ∧ (inst.secretKey y).decrypt p ((inst.publicKey p).encrypt p r x) bound
        = some (ipN x y) := by
  have hp2 : 2 ≤ p := hp.two_le
  have hg0 : (inst.g : ZMod p) ≠ 0 := by
    intro h0
    have hdvd : p ∣ inst.g :=
      (ZMod.natCast_zmod_eq_zero_iff_dvd _ _).mp h0
    have := Nat.le_of_dvd (by omega) hdvd
    omega
  have hh0 : (inst.h : ZMod p) ≠ 0 := by
    intro h0
    have hdvd : p ∣ inst.h :=
      (ZMod.natCast_zmod_eq_zero_iff_dvd _ _).mp h0
    have := Nat.le_of_dvd (by omega) hdvd
    omega
  have hex := ffExValue_eq p hp inst hg0 hh0 x y r hs ht hy
  refine ⟨rfl, hex, ?_⟩
  rw [FfSecretKey.decrypt]
  simp only [hex]
  have hgsk : (inst.secretKey y).g = inst.g := rfl
  rw [hgsk]
  have hloop := ffBfLoop_found p inst.g (powMod p inst.g (ipN x y)) bound
    (ipN x y) rfl hb hmiss bound 0 (by omega) (by omega)
  rw [show powMod p inst.g 0 = 1 by
      rw [powMod, pow_zero]
      exact Nat.mod_eq_of_lt (by omega)] at hloop
  rw [hloop]
  simp only [Nat.ne_of_lt hb, if_false]

/-- The degenerate safe-prime instance `g = p - 1` over the safe prime
`p = 23`: `g` has order 2, so the discrete-log walk stops too early. -/
def ffCexInstance : FfInstance := { g := 22, h := 2, s := [2, 5], t := [3, 7] }

/-- C8 as stated is false for instances whose `g` has tiny order: with
`p = 23` (a safe prime, as the spec's modulus), `g = 22 = p - 1`,
`x = y = [1,1]` so `⟨x,y⟩ = 2 < 3 = bound`, decryption returns `Some 0`
because `g^0 = g^2 = 1 mod p`. -/
theorem ff_fe_correctness_claim_counterexample :
    Nat.Prime 23 ∧ Nat.Prime ((23 - 1) / 2)
    ∧ (ffCexInstance.secretKey [1, 1]).decrypt 23
        ((ffCexInstance.publicKey 23).encrypt 23 4 [1, 1]) 3 = some 0
    ∧ ipN [1, 1] [1, 1] = 2
    ∧ (some 0 : Option ℕ) ≠ some 2 := by
  refine ⟨by norm_num, by norm_num, by decide, by decide, by decide⟩

/-- A nondegenerate concrete safe-prime instance (`p = 23`, `g = 2` of
order 11). -/
def ffWitInstance : FfInstance := { g := 2, h := 3, s := [2, 5], t := [4, 7] }

/-- Witness for the amended C8 at a concrete input: `⟨[1,2],[3,0]⟩ = 3`. -/
theorem ff_fe_correctness_witness :
    (ffWitInstance.secretKey [3, 0]).decrypt 23
        ((ffWitInstance.publicKey 23).encrypt 23 6 [1, 2]) 5 = some 3 := by
  have h := (ff_fe_correctness 23 (by norm_num) ffWitInstance (by decide)
    (by decide) (by decide) (by decide) [1, 2] [3, 0] 6 5
    (by rfl) (by rfl) (by rfl) (by decide) (by decide)).2.2
  rw [show ipN [1, 2] [3, 0] = 3 from by decide] at h
  exact h

/-! ## The three-role protocol
(`src/compute-server/src/compute_server.rs`, `src/client/src/client.rs`,
`src/instance-server/src/instance_server.rs`, `src/messages/src/lib.rs`)

The network transport is bypassed (messages are delivered as values);
everything else — corpus encoding, batching by 511, per-batch instance,
key compression and decompression, the client's running maximum, the
compute server's per-batch reset — follows the sources. -/

/-- `i16::MIN`, the initial similarity score of both parties. -/
def i16Min : ℤ := -32768

/-- The authority's byte-to-bit fanning
(`instance_server.rs::generate_parameters_nilsimsa`):
`array::from_fn(|i| 1 & (v_bytes[i / 8] >> (7 - (i % 8))))`. -/
def authBits (v : List ℕ) : List ℕ :=
  (List.range 512).map (fun i => 1 &&& (v.getD (i / 8) 0 >>> (7 - i % 8)))

/-- `hashes.chunks(NILSIMSA_VECTOR_SIZE_BITS - 1)`: split into runs of at
most 511, every chunk nonempty.  The fuel argument (instantiated with the
list length) only bounds the recursion depth. -/
def chunks511F : ℕ → List α → List (List α)
  | 0, _ => []
  | _ + 1, [] => []
  | fuel + 1, a :: rest =>
    ((a :: rest).take 511) :: chunks511F fuel ((a :: rest).drop 511)

/-- `hashes.chunks(511)`. -/
def chunks511 (l : List α) : List (List α) :=
  chunks511F l.length l

/-- The authority compressing the batch's secret keys
(`GenerateInstanceResponse::from`); a panic anywhere aborts. -/
def compressAll (inst : EcInstance q) :
    List (List ℕ) → Option (List (CompressedSecretKeyEc q))
  | [] => some []
  | v :: rest =>
    match compressSK (inst.secretKey (authBits v)), compressAll inst rest with
    | some c, some cs => some (c :: cs)
    | _, _ => none

/-- The compute server decompressing the authority's response
(`messages.rs::GenerateInstanceResponse::decompress`); any failure aborts
the session. -/
def decompressAll :
    List (CompressedSecretKeyEc q) → Option (List (EcSecretKey q))
  | [] => some []
  | c :: rest =>
    match decompressSK 512 c, decompressAll rest with
    | some sk, some sks => some (sk :: sks)
    | _, _ => none

/-- One batch round of `handle_client` interleaved with `Client::start`.
State: the compute server's `score` (reset to `i16::MIN` before each inner
loop) and the client's running `score`.  Each round the server sends
`(Some pk, Some score)`; the client folds the received score into its own
maximum and replies with an encryption of its vector under fresh
randomness; the server scores the batch.  After the last batch the server
sends `(None, Some score)` and the client returns its maximum.  The result
is `(finalSentScore, clientResult)`; `none` models a panic. -/
def sessionLoop (xbits : List ℕ) :
    List (EcPublicKey q × List (EcSecretKey q) × ZMod q) → ℤ → ℤ →
      Option (ℤ × ℤ)
  | [], computeScore, clientScore =>
    some (computeScore, max clientScore computeScore)
  | (pk, sks, r) :: rest, computeScore, clientScore =>
    match scoreBatch sks (pk.encrypt r xbits) i16Min with
    | none => none
    | some m => sessionLoop xbits rest m (max clientScore computeScore)

/-- The compute server's key-fetching loop (`Server::run`): one authority
round trip per batch, decompressing each response. -/
def buildKeys : List (List (List ℕ)) → List (EcInstance q × ZMod q) →
    Option (List (EcPublicKey q × List (EcSecretKey q) × ZMod q))
  | [], _ => some []
  | _ :: _, [] => none
  | b :: bs, (inst, r) :: ps =>
    match compressAll inst b, buildKeys bs ps with
    | some csks, some rest =>
      match decompressAll csks with
      | none => none
      | some sks => some ((inst.publicKey, sks, r) :: rest)
    | _, _ => none

/-- The full session: the compute server loads the corpus digests, encodes
them (`FHVector::from`), chunks them into batches of 511, obtains one
instance per batch from the authority (instance randomness supplied by
`params`), and runs the per-batch exchange against the client whose digest
is `xdigest`. -/
def runSession (q : ℕ) (xdigest : List ℕ) (corpus : List (List ℕ))
    (params : List (EcInstance q × ZMod q)) : Option (ℤ × ℤ) :=
  match buildKeys (chunks511 (corpus.map fhVectorOfDigest)) params with
  | none => none
  | some keys => sessionLoop (encodeDigest xdigest) keys i16Min i16Min

/-! ### Protocol helper lemmas -/

lemma chunks511F_join : ∀ (fuel : ℕ) (l : List α), l.length ≤ fuel →
    (chunks511F fuel l).flatten = l := by
  intro fuel
  induction fuel with
  | zero =>
    intro l hl
    have : l = [] := List.length_eq_zero.mp (by omega)
    subst this
    rfl
  | succ n ih =>
    intro l hl
    cases l with
    | nil => rfl
    | cons a rest =>
      rw [chunks511F, List.flatten_cons,
        ih ((a :: rest).drop 511) (by
          simp only [List.length_drop, List.length_cons] at hl ⊢
          omega),
        List.take_append_drop]

lemma chunks511_join (l : List α) : (chunks511 l).flatten = l :=
  chunks511F_join l.length l le_rfl

/-- Every bit position of `to_bits` reads the MSB-first bit of byte
`i / 8`. -/
lemma toBits_getD (l : List ℕ) (i : ℕ) (hi : i < 8 * l.length) :
    (toBits l).getD i 0 = 1 &&& (l.getD (i / 8) 0 >>> (7 - i % 8)) := by
  induction l generalizing i with
  | nil => simp at hi
  | cons a l ih =>
    show (byteBits a ++ toBits l).getD i 0 = _
    by_cases h8 : i < 8
    · rw [List.getD_append _ _ _ _ (by rw [byteBits_length]; exact h8)]
      rw [byteBits, List.getD_eq_getElem _ _ (by simpa using h8)]
      simp only [List.getElem_map, List.getElem_range]
      rw [show i / 8 = 0 by omega, show i % 8 = i by omega]
      rfl
    · rw [List.getD_append_right _ _ _ _ (by rw [byteBits_length]; omega),
        byteBits_length]
      rw [ih (i - 8) (by simp at hi; omega)]
      have h1 : (a :: l).getD (i / 8) 0 = l.getD ((i - 8) / 8) 0 := by
        rw [show i / 8 = ((i - 8) / 8) + 1 by omega]
        rfl
      rw [h1, show 7 - i % 8 = 7 - (i - 8) % 8 by omega]

/-- The authority's index-based bit extraction agrees with the client's
`to_bits` fanning on 64-byte vectors. -/
lemma authBits_eq_toBits (v : List ℕ) (hv : v.length = 64) :
    authBits v = toBits v := by
  apply List.ext_getElem
  · rw [toBits_length, hv]
    simp [authBits]
  · intro i h1 h2
    have hi : i < 512 := by simpa [authBits] using h1
    rw [show (authBits v)[i] = 1 &&& (v.getD (i / 8) 0 >>> (7 - i % 8)) by
      simp [authBits]]
    rw [← List.getD_eq_getElem (toBits v) 0 h2,
      toBits_getD v i (by rw [hv]; omega)]

lemma foldlMax_ge_init (sc : α → ℤ) (l : List α) (a : ℤ) :
    a ≤ l.foldl (fun acc v => max acc (sc v)) a := by
  induction l generalizing a with
  | nil => simp
  | cons v l ih =>
    simp only [List.foldl_cons]
    exact le_trans (le_max_left a (sc v)) (ih (max a (sc v)))

lemma foldlMax_ge_mem (sc : α → ℤ) (l : List α) (a : ℤ) (v : α)
    (hv : v ∈ l) : sc v ≤ l.foldl (fun acc u => max acc (sc u)) a := by
  induction l generalizing a with
  | nil => simp at hv
  | cons u l ih =>
    simp only [List.foldl_cons]
    rcases List.mem_cons.mp hv with h | h
    · subst h
      exact le_trans (le_max_right a (sc v)) (foldlMax_ge_init sc l _)
    · exact ih _ h

lemma foldlMax_le (sc : α → ℤ) (l : List α) (a c : ℤ) (hac : a ≤ c)
    (h : ∀ v ∈ l, sc v ≤ c) :
    l.foldl (fun acc v => max acc (sc v)) a ≤ c := by
  induction l generalizing a with
  | nil => simpa
  | cons v l ih =>
    simp only [List.foldl_cons]
    exact ih _ (max_le hac (h v (by simp)))
      (fun u hu => h u (by simp [hu]))

/-- Folding the per-chunk maxima (each restarted at `a`) equals folding the
whole list: the per-batch reset is harmless for the combined maximum. -/
lemma foldmax_chunks (sc : α → ℤ) (l : List α) (a : ℤ) :
    ((chunks511 l).map (fun b => b.foldl (fun acc v => max acc (sc v)) a)).foldl
        (fun acc m => max acc m) a
      = l.foldl (fun acc v => max acc (sc v)) a := by
  apply le_antisymm
  · apply foldlMax_le (fun z => z)
    · exact foldlMax_ge_init sc l a
    · intro m hm
      obtain ⟨b, hb, rfl⟩ := List.mem_map.mp hm
      apply foldlMax_le sc
      · exact foldlMax_ge_init sc l a
      · intro v hv
        apply foldlMax_ge_mem sc l a v
        have : v ∈ (chunks511 l).flatten := List.mem_flatten.mpr ⟨b, hb, hv⟩
        rwa [chunks511_join] at this
  · apply foldlMax_le sc
    · exact foldlMax_ge_init (fun z => z) _ a
    · intro v hv
      have hvj : v ∈ (chunks511 l).flatten := by
        rw [chunks511_join]
        exact hv
      obtain ⟨b, hb, hvb⟩ := List.mem_flatten.mp hvj
      calc sc v ≤ b.foldl (fun acc u => max acc (sc u)) a :=
            foldlMax_ge_mem sc b a v hvb
        _ ≤ _ := foldlMax_ge_mem (fun z => z) _ a _
            (List.mem_map.mpr ⟨b, hb, rfl⟩)

/-- The inner scoring loop over a batch whose compares all succeed. -/
lemma scoreBatch_map (b : List (List ℕ)) (ct : EcCipherText q)
    (key : List ℕ → EcSecretKey q) (sc : List ℕ → ℤ)
    (h : ∀ v ∈ b, compare (key v) ct = some (sc v)) (a : ℤ) :
    scoreBatch (b.map key) ct a
      = some (b.foldl (fun acc v => max acc (sc v)) a) := by
  induction b generalizing a with
  | nil => rfl
  | cons v b ih =>
    rw [List.map_cons, scoreBatch_cons, h v (by simp)]
    show scoreBatch (b.map key) ct (if sc v > a then sc v else a) = _
    rw [show (if sc v > a then sc v else a) = max a (sc v) by
      rcases le_or_lt (sc v) a with hle | hlt
      · rw [if_neg (not_lt.mpr hle), max_eq_left hle]
      · rw [if_pos hlt, max_eq_right (le_of_lt hlt)]]
    exact ih (fun u hu => h u (by simp [hu])) _

/-- The authority's compression and the compute server's decompression of
one batch cancel (each key's vector is a bit vector). -/
lemma compressAll_decompressAll (inst : EcInstance q) (b : List (List ℕ)) :
    ∃ csks, compressAll inst b = some csks
      ∧ decompressAll csks
        = some (b.map (fun v => inst.secretKey (authBits v))) := by
  induction b with
  | nil => exact ⟨[], rfl, rfl⟩
  | cons v b ih =>
    obtain ⟨csks, hc, hd⟩ := ih
    have hbits : ∀ bb ∈ (inst.secretKey (authBits v)).x, bb = 0 ∨ bb = 1 := by
      intro bb hbb
      obtain ⟨z, hz, rfl⟩ := List.mem_map.mp hbb
      simp only [authBits] at hz
      obtain ⟨i, hi, rfl⟩ := List.mem_map.mp hz
      have hle : 1 &&& (v.getD (i / 8) 0 >>> (7 - i % 8)) ≤ 1 := and_one_le _
      rcases Nat.le_one_iff_eq_zero_or_eq_one.mp hle with h0 | h1
      · left
        rw [h0, Nat.cast_zero]
      · right
        rw [h1, Nat.cast_one]
    obtain ⟨csk, hcsk, hdsk⟩ := compress_then_decompress
      (inst.secretKey (authBits v)) (by simp [EcInstance.secretKey, castL, authBits]) hbits
    refine ⟨csk :: csks, ?_, ?_⟩
    · rw [show compressAll inst (v :: b)
          = match compressSK (inst.secretKey (authBits v)),
              compressAll inst b with
            | some c, some cs => some (c :: cs)
            | _, _ => none from rfl, hcsk, hc]
    · rw [show decompressAll (csk :: csks)
          = match decompressSK 512 csk, decompressAll csks with
            | some sk, some sks => some (sk :: sks)
            | _, _ => none from rfl, hdsk, hd, List.map_cons]

lemma buildKeys_cons_eq (inst : EcInstance q) (r : ZMod q)
    (b : List (List ℕ)) (bs : List (List (List ℕ)))
    (ps : List (EcInstance q × ZMod q))
    (csks : List (CompressedSecretKeyEc q)) (sks : List (EcSecretKey q))
    (rest : List (EcPublicKey q × List (EcSecretKey q) × ZMod q))
    (hc : compressAll inst b = some csks)
    (hd : decompressAll csks = some sks)
    (hrest : buildKeys bs ps = some rest) :
    buildKeys (b :: bs) ((inst, r) :: ps)
      = some ((inst.publicKey, sks, r) :: rest) := by
  rw [show buildKeys (b :: bs) ((inst, r) :: ps)
      = match compressAll inst b, buildKeys bs ps with
        | some csks, some rest =>
          (match decompressAll csks with
           | none => none
           | some sks => some ((inst.publicKey, sks, r) :: rest))
        | _, _ => none from rfl, hc, hrest]
  show (match decompressAll csks with
        | none => none
        | some sks => some ((inst.publicKey, sks, r) :: rest)) = _
  rw [hd]

/-- `buildKeys` succeeds and returns exactly the per-batch instances'
public keys and secret keys. -/
lemma buildKeys_eq (batches : List (List (List ℕ)))
    (params : List (EcInstance q × ZMod q))
    (hlen : params.length = batches.length) :
    buildKeys batches params
      = some (List.zipWith (fun b pr =>
          (pr.1.publicKey, b.map (fun v => pr.1.secretKey (authBits v)),
            pr.2)) batches params) := by
  induction batches generalizing params with
  | nil =>
    cases params with
    | nil => rfl
    | cons p ps => simp at hlen
  | cons b bs ih =>
    cases params with
    | nil => simp at hlen
    | cons pr ps =>
      obtain ⟨inst, r⟩ := pr
      obtain ⟨csks, hc, hd⟩ := compressAll_decompressAll inst b
      rw [buildKeys_cons_eq inst r b bs ps csks _ _ hc hd
        (ih ps (by simpa using hlen)), List.zipWith_cons_cons]

lemma sessionLoop_cons (xbits : List ℕ) (pk : EcPublicKey q)
    (sks : List (EcSecretKey q)) (r : ZMod q)
    (rest : List (EcPublicKey q × List (EcSecretKey q) × ZMod q))
    (c cl : ℤ) :
    sessionLoop xbits ((pk, sks, r) :: rest) c cl
      = match scoreBatch sks (pk.encrypt r xbits) i16Min with
        | none => none
        | some m => sessionLoop xbits rest m (max cl c) := rfl

/-- The complete interleaved exchange over the batches: with nondegenerate
per-batch instances, the loop never panics; the final `EncryptionRequest`
carries the *last* batch's maximum (`c` if there are no batches) while the
client's result folds every per-batch maximum. -/
lemma session_over_batches (hq : Nat.Prime q) (hq512 : 512 ≤ q)
    (xdigest : List ℕ) (hx : xdigest.length = 32)
    (batches : List (List (List ℕ))) (params : List (EcInstance q × ZMod q))
    (hplen : params.length = batches.length)
    (hg : ∀ pr ∈ params, pr.1.g ≠ 0)
    (hst : ∀ pr ∈ params, pr.1.s.length = 512 ∧ pr.1.t.length = 512)
    (hbv : ∀ b ∈ batches, ∀ v ∈ b, ∃ d, d.length = 32 ∧ v = fhVectorOfDigest d)
    (c cl : ℤ) :
    sessionLoop (encodeDigest xdigest)
        (List.zipWith (fun b pr =>
          (pr.1.publicKey, b.map (fun v => pr.1.secretKey (authBits v)),
            pr.2)) batches params) c cl
      = some
          ((batches.map (fun b => b.foldl (fun acc v =>
              max acc ((ipN (toBits v) (encodeDigest xdigest) : ℤ) - 128))
            i16Min)).getLastD c,
           (batches.map (fun b => b.foldl (fun acc v =>
              max acc ((ipN (toBits v) (encodeDigest xdigest) : ℤ) - 128))
            i16Min)).foldl (fun acc m => max acc m) (max cl c)) := by
  induction batches generalizing params c cl with
  | nil =>
    cases params with
    | nil => rfl
    | cons p ps => simp at hplen
  | cons b bs ih =>
    cases params with
    | nil => simp at hplen
    | cons pr ps =>
      obtain ⟨inst, r⟩ := pr
      rw [List.zipWith_cons_cons]
      have hscore : scoreBatch (b.map (fun v => inst.secretKey (authBits v)))
          (inst.publicKey.encrypt r (encodeDigest xdigest)) i16Min
          = some (b.foldl (fun acc v =>
              max acc ((ipN (toBits v) (encodeDigest xdigest) : ℤ) - 128))
            i16Min) := by
        apply scoreBatch_map
        intro v hv
        obtain ⟨d, hd32, rfl⟩ := hbv b (by simp) v hv
        have h1 := compare_encoded_prime hq hq512 inst
          (hg (inst, r) (by simp)) (hst (inst, r) (by simp)).1
          (hst (inst, r) (by simp)).2 d xdigest hd32 hx r
        rw [authBits_eq_toBits (fhVectorOfDigest d) (by simp [fhVectorOfDigest])]
        exact h1
      rw [show sessionLoop (encodeDigest xdigest)
          ((inst.publicKey, b.map (fun v => inst.secretKey (authBits v)), r)
            :: List.zipWith (fun b pr =>
              (pr.1.publicKey, b.map (fun v => pr.1.secretKey (authBits v)),
                pr.2)) bs ps) c cl
        = match scoreBatch (b.map (fun v => inst.secretKey (authBits v)))
            (inst.publicKey.encrypt r (encodeDigest xdigest)) i16Min with
          | none => none
          | some m => sessionLoop (encodeDigest xdigest)
              (List.zipWith (fun b pr =>
                (pr.1.publicKey, b.map (fun v => pr.1.secretKey (authBits v)),
                  pr.2)) bs ps) m (max cl c) from rfl, hscore]
      show sessionLoop (encodeDigest xdigest) _ _ (max cl c) = _
      rw [ih ps (by simpa using hplen) (fun p hp => hg p (by simp [hp]))
        (fun p hp => hst p (by simp [hp]))
        (fun bb hbb => hbv bb (by simp [hbb]))]
      rw [List.map_cons, List.getLastD_cons, List.foldl_cons]

/-- C2: end-to-end over the three-role protocol, the score the client
returns equals `max_i (128 - (256 - ⟨v(x), v(y_i)⟩))` over the whole
corpus, and `i16::MIN` for an empty corpus — for nondegenerate per-batch
instances.  (The compute server's per-batch reset of its `score` variable
is compensated by the client folding every received per-batch maximum.) -/
theorem batch_max_protocol (q : ℕ) (hq : Nat.Prime q) (hq512 : 512 ≤ q)
    (xdigest : List ℕ) (hx : xdigest.length = 32)
    (corpus : List (List ℕ)) (hcorp : ∀ d ∈ corpus, d.length = 32)
    (params : List (EcInstance q × ZMod q))
    (hplen : params.length = (chunks511 (corpus.map fhVectorOfDigest)).length)
    (hg : ∀ pr ∈ params, pr.1.g ≠ 0)
    (hst : ∀ pr ∈ params, pr.1.s.length = 512 ∧ pr.1.t.length = 512) :
    Option.map (fun pr => pr.2) (runSession q xdigest corpus params)
      = some (corpus.foldl (fun acc d =>
          max acc ((128 : ℤ)
            - (256 - (ipN (encodeDigest xdigest) (encodeDigest d) : ℤ))))
          i16Min) := by
  have hbv : ∀ b ∈ chunks511 (corpus.map fhVectorOfDigest), ∀ v ∈ b,
      ∃ d, d.length = 32 ∧ v = fhVectorOfDigest d := by
    intro b hb v hv
    have hvl : v ∈ corpus.map fhVectorOfDigest := by
      have : v ∈ (chunks511 (corpus.map fhVectorOfDigest)).flatten :=
        List.mem_flatten.mpr ⟨b, hb, hv⟩
      rwa [chunks511_join] at this
    obtain ⟨d, hd, rfl⟩ := List.mem_map.mp hvl
    exact ⟨d, hcorp d hd, rfl⟩
  simp only [runSession]
  rw [buildKeys_eq _ _ hplen]
  show Option.map (fun pr => pr.2)
      (sessionLoop (encodeDigest xdigest) _ i16Min i16Min) = _
  rw [session_over_batches hq hq512 xdigest hx _ params hplen hg hst hbv
    i16Min i16Min]
  rw [Option.map_some']
  rw [show max i16Min i16Min = i16Min from max_self _]
  rw [foldmax_chunks (fun v =>
    (ipN (toBits v) (encodeDigest xdigest) : ℤ) - 128)
    (corpus.map fhVectorOfDigest) i16Min]
  rw [List.foldl_map]
  refine congrArg some ?_
  apply List.foldl_ext
  intro acc d _
  have hval : (ipN (toBits (fhVectorOfDigest d)) (encodeDigest xdigest) : ℤ)
        - 128
      = 128 - (256 - (ipN (encodeDigest xdigest) (encodeDigest d) : ℤ)) := by
    rw [show ipN (toBits (fhVectorOfDigest d)) (encodeDigest xdigest)
        = ipN (encodeDigest xdigest) (encodeDigest d) from ipN_comm _ _]
    omega
  rw [hval]

/-- C7 (amended): the compute server's `score` is reset to `i16::MIN` at
the start of every batch, so throughout the loop it holds the running
maximum of the *current* batch only, and the final `EncryptionRequest`
with `pk = None` carries the *last* batch's maximum (`i16::MIN` for an
empty corpus) — not, in general, the maximum over the whole corpus.  (The
corpus-wide maximum still reaches the client because every per-batch
maximum is sent in some round's `similarity_score` and the client folds
max over all of them.) -/
theorem final_message_last_batch_max (q : ℕ) (hq : Nat.Prime q)
    (hq512 : 512 ≤ q) (xdigest : List ℕ) (hx : xdigest.length = 32)
    (corpus : List (List ℕ)) (hcorp : ∀ d ∈ corpus, d.length = 32)
    (params : List (EcInstance q × ZMod q))
    (hplen : params.length = (chunks511 (corpus.map fhVectorOfDigest)).length)
    (hg : ∀ pr ∈ params, pr.1.g ≠ 0)
    (hst : ∀ pr ∈ params, pr.1.s.length = 512 ∧ pr.1.t.length = 512) :
    Option.map (fun pr => pr.1) (runSession q xdigest corpus params)
      = some (((chunks511 (corpus.map fhVectorOfDigest)).map (fun b =>
          b.foldl (fun acc v =>
            max acc ((ipN (toBits v) (encodeDigest xdigest) : ℤ) - 128))
          i16Min)).getLastD i16Min) := by
  have hbv : ∀ b ∈ chunks511 (corpus.map fhVectorOfDigest), ∀ v ∈ b,
      ∃ d, d.length = 32 ∧ v = fhVectorOfDigest d := by
    intro b hb v hv
    have hvl : v ∈ corpus.map fhVectorOfDigest := by
      have : v ∈ (chunks511 (corpus.map fhVectorOfDigest)).flatten :=
        List.mem_flatten.mpr ⟨b, hb, hv⟩
      rwa [chunks511_join] at this
    obtain ⟨d, hd, rfl⟩ := List.mem_map.mp hvl
    exact ⟨d, hcorp d hd, rfl⟩
  simp only [runSession]
  rw [buildKeys_eq _ _ hplen]
  show Option.map (fun pr => pr.1)
      (sessionLoop (encodeDigest xdigest) _ i16Min i16Min) = _
  rw [session_over_batches hq hq512 xdigest hx _ params hplen hg hst hbv
    i16Min i16Min]
  rw [Option.map_some']

/-- A nondegenerate instance over the prime `521`. -/
def ecInst521 : EcInstance 521 :=
  { g := 1, h := 0, s := List.replicate 512 0, t := List.replicate 512 0 }

/-- Witness for C2: a one-digest corpus equal to the client's digest
scores `128`. -/
theorem batch_max_protocol_witness :
    Option.map (fun pr => pr.2)
      (runSession 521 (List.replicate 32 0) [List.replicate 32 0]
        [(ecInst521, 0)])
      = some 128 := by
  have h := batch_max_protocol 521 (by norm_num) (by norm_num)
    (List.replicate 32 0) (by simp)
    [List.replicate 32 0]
    (fun d hd => by rw [List.eq_of_mem_singleton hd]; simp)
    [(ecInst521, (0 : ZMod 521))] (by rfl)
    (fun pr hpr => by rw [List.eq_of_mem_singleton hpr]; decide)
    (fun pr hpr => by
      rw [List.eq_of_mem_singleton hpr]
      exact ⟨by simp [ecInst521], by simp [ecInst521]⟩)
  rw [h, List.foldl_cons, List.foldl_nil,
    show ipN (encodeDigest (List.replicate 32 0))
        (encodeDigest (List.replicate 32 0)) = 256 from by decide]
  decide

/-- Witness for the amended C7: with a single batch, the final message
carries that batch's maximum. -/
theorem final_message_last_batch_max_witness :
    Option.map (fun pr => pr.1)
      (runSession 521 (List.replicate 32 0) [List.replicate 32 0]
        [(ecInst521, 0)])
      = some 128 := by
  have h := final_message_last_batch_max 521 (by norm_num) (by norm_num)
    (List.replicate 32 0) (by simp)
    [List.replicate 32 0]
    (fun d hd => by rw [List.eq_of_mem_singleton hd]; simp)
    [(ecInst521, (0 : ZMod 521))] (by rfl)
    (fun pr hpr => by rw [List.eq_of_mem_singleton hpr]; decide)
    (fun pr hpr => by
      rw [List.eq_of_mem_singleton hpr]
      exact ⟨by simp [ecInst521], by simp [ecInst521]⟩)
  rw [h,
    show chunks511 ([List.replicate 32 0].map fhVectorOfDigest)
      = [[fhVectorOfDigest (List.replicate 32 0)]] from rfl,
    List.map_cons, List.map_nil, List.foldl_cons, List.foldl_nil,
    show ipN (toBits (fhVectorOfDigest (List.replicate 32 0)))
        (encodeDigest (List.replicate 32 0)) = 256 from by decide]
  decide

/-- The keys of a two-batch run whose first batch scores `128` and second
scores `-128`. -/
def keysCexC7 : List (EcPublicKey 521 × List (EcSecretKey 521) × ZMod 521) :=
  [(ecInst521.publicKey,
    [ecInst521.secretKey (authBits (fhVectorOfDigest (List.replicate 32 0)))],
    0),
   (ecInst521.publicKey,
    [ecInst521.secretKey (authBits (fhVectorOfDigest (List.replicate 32 255)))],
    0)]

/-- C7 as stated is false: in a two-batch run the final `EncryptionRequest`
carries the last batch's maximum `-128`, not the maximum `128` over the
whole corpus (which the client still returns). -/
theorem running_max_claim_counterexample :
    Option.map (fun pr => pr.1)
      (sessionLoop (encodeDigest (List.replicate 32 0)) keysCexC7
        i16Min i16Min) = some (-128)
    ∧ Option.map (fun pr => pr.2)
      (sessionLoop (encodeDigest (List.replicate 32 0)) keysCexC7
        i16Min i16Min) = some 128
    ∧ (-128 : ℤ) ≠ 128 := by
  have h := session_over_batches (q := 521) (by norm_num) (by norm_num)
    (List.replicate 32 0) (by simp)
    [[fhVectorOfDigest (List.replicate 32 0)],
     [fhVectorOfDigest (List.replicate 32 255)]]
    [(ecInst521, (0 : ZMod 521)), (ecInst521, (0 : ZMod 521))] rfl
    (by
      intro pr hpr
      rcases List.mem_cons.mp hpr with h1 | h1
      · rw [h1]; decide
      · rw [List.eq_of_mem_singleton h1]; decide)
    (by
      intro pr hpr
      rcases List.mem_cons.mp hpr with h1 | h1
      · rw [h1]; exact ⟨by simp [ecInst521], by simp [ecInst521]⟩
      · rw [List.eq_of_mem_singleton h1]
        exact ⟨by simp [ecInst521], by simp [ecInst521]⟩)
    (by
      intro b hb v hv
      rcases List.mem_cons.mp hb with h1 | h1
      · rw [h1] at hv
        exact ⟨List.replicate 32 0, by simp, List.eq_of_mem_singleton hv⟩
      · rw [List.eq_of_mem_singleton h1] at hv
        exact ⟨List.replicate 32 255, by simp, List.eq_of_mem_singleton hv⟩)
    i16Min i16Min
  rw [show List.zipWith (fun b pr =>
      ((pr.1 : EcInstance 521).publicKey,
        b.map (fun v => pr.1.secretKey (authBits v)), pr.2))
      [[fhVectorOfDigest (List.replicate 32 0)],
       [fhVectorOfDigest (List.replicate 32 255)]]
      [(ecInst521, (0 : ZMod 521)), (ecInst521, (0 : ZMod 521))]
      = keysCexC7 from rfl] at h
  simp only [List.map_cons, List.map_nil, List.foldl_cons,
    List.foldl_nil] at h
  rw [show ipN (toBits (fhVectorOfDigest (List.replicate 32 0)))
      (encodeDigest (List.replicate 32 0)) = 256 from by decide,
    show ipN (toBits (fhVectorOfDigest (List.replicate 32 255)))
      (encodeDigest (List.replicate 32 0)) = 0 from by decide] at h
  rw [h]
  refine ⟨by decide, by decide, by decide⟩

/-- A degenerate instance (`g = identity`) over the prime `521`. -/
def ecInst521Deg : EcInstance 521 :=
  { g := 0, h := 0, s := List.replicate 512 0, t := List.replicate 512 0 }

/-- C2 as stated is false when a batch's instance is degenerate
(`g = identity`, a possible output of `setup`): a one-digest corpus equal
to the client's digest should score `128`, but every decryption yields
`Some 0`, so the client returns `-128`. -/
theorem batch_max_claim_counterexample :
    Option.map (fun pr => pr.2)
      (runSession 521 (List.replicate 32 0) [List.replicate 32 0]
        [(ecInst521Deg, 0)])
      = some (-128)
    ∧ List.foldl (fun acc d => max acc ((128 : ℤ)
        - (256 - (ipN (encodeDigest (List.replicate 32 0))
            (encodeDigest d) : ℤ))))
        i16Min [List.replicate 32 0] = 128
    ∧ some (-128 : ℤ) ≠ some 128 := by
  refine ⟨?_, ?_, by decide⟩
  · simp only [runSession]
    rw [buildKeys_eq _ _ (by rfl)]
    show Option.map (fun pr => pr.2)
      (sessionLoop (encodeDigest (List.replicate 32 0)) _ i16Min i16Min) = _
    have hex : (ecInst521Deg.secretKey
          (authBits (fhVectorOfDigest (List.replicate 32 0)))).exValue
        (ecInst521Deg.publicKey.encrypt 0
          (encodeDigest (List.replicate 32 0)))
        = 0 := by
      rw [exValue_encrypt ecInst521Deg _ _ 0
        (by simp [ecInst521Deg, encodeDigest_length])
        (by simp [ecInst521Deg, encodeDigest_length])
        (by simp [authBits, encodeDigest_length])]
      rw [show ecInst521Deg.g = 0 from rfl, mul_zero]
    have hdec : (ecInst521Deg.secretKey
          (authBits (fhVectorOfDigest (List.replicate 32 0)))).decrypt
        (ecInst521Deg.publicKey.encrypt 0
          (encodeDigest (List.replicate 32 0))) 512
        = some 0 := by
      rw [EcSecretKey.decrypt, hex]
      rfl
    have hcmp : compare (ecInst521Deg.secretKey
          (authBits (fhVectorOfDigest (List.replicate 32 0))))
        (ecInst521Deg.publicKey.encrypt 0
          (encodeDigest (List.replicate 32 0)))
        = some (-128) := by
      simp only [compare, hdec]
      rfl
    rw [show chunks511 ([List.replicate 32 0].map fhVectorOfDigest)
        = [[fhVectorOfDigest (List.replicate 32 0)]] from rfl]
    rw [show List.zipWith (fun b pr =>
          ((pr.1 : EcInstance 521).publicKey,
            b.map (fun v => pr.1.secretKey (authBits v)), pr.2))
          [[fhVectorOfDigest (List.replicate 32 0)]]
          [(ecInst521Deg, (0 : ZMod 521))]
        = [(ecInst521Deg.publicKey,
            [ecInst521Deg.secretKey
              (authBits (fhVectorOfDigest (List.replicate 32 0)))],
            (0 : ZMod 521))] from rfl]
    rw [sessionLoop_cons, scoreBatch_cons, hcmp]
    decide
  · rw [List.foldl_cons, List.foldl_nil,
      show ipN (encodeDigest (List.replicate 32 0))
        (encodeDigest (List.replicate 32 0)) = 256 from by decide]
    decide

end IPFE
